import Mathlib

/-!
Verification of the `UnorderedMap` hash container (bucket-chained open hashing
over one shared doubly-linked `List`) from the C++ sources.

Modelling conventions:
* The node store `values_` (a doubly-linked list of `std::pair<const Key, Value>`)
  is modelled as a Lean `List (K × V)` in front-to-back order.
* A `List` iterator is a stable pointer to a node; positionally it is `Option Nat`:
  `some i` is the node currently at index `i`, `none` is the end sentinel
  (`fake_node_`).  A structural change renumbers positions, so stored iterators
  (the entries of `buckets_`) are renumbered accordingly (`shiftGE` / `shiftGT`):
  the pointer keeps denoting the same node.
* `max_load_factor` is the default `0.75`.  All the floating-point expressions of
  the source are exact for this factor and are embedded as `Nat` arithmetic:
  `static_cast<size_t>(bucket_count() * 0.75) = (3*bc)/4`,
  `static_cast<size_t>(size() / 0.75) = (4*s)/3` (truncation),
  `std::ceil(count / 0.75) = (4*c+2)/3`,
  `std::ceil(2.0 * size()) = 2*s`.
* `UnorderedMap::rehash` re-inserts drained entries through `insert`/`emplace`,
  which may itself call `rehash`; the mutual recursion is given explicit fuel and
  returns `none` when the fuel runs out (the theorems are conditional on the call
  returning a result).  Undefined behaviour (remainder by zero in `get_hash` when
  `bucket_count() == 0`, dereferencing the end sentinel, a failing `assert`) is
  modelled as `none`.
-/

/-- The state of an `UnorderedMap`: the node store and the bucket index
(`std::vector` of `List` iterators). -/
structure UMap (K V : Type) where
  values  : List (K × V)
  buckets : List (Option Nat)
deriving DecidableEq

/-- `size()` — delegated to `values_.size()`. -/
def UMap.size {K V : Type} (m : UMap K V) : Nat := m.values.length

/-- `bucket_count()` — `buckets_.size()`. -/
def UMap.bucketCount {K V : Type} (m : UMap K V) : Nat := m.buckets.length

/-- The list of stored keys, in iteration order. -/
def UMap.keys {K V : Type} (m : UMap K V) : List K := m.values.map Prod.fst

/-- `buckets_[h]` (sound for `h < bucket_count()`, which all defined C++
executions guarantee). -/
def UMap.headAt {K V : Type} (m : UMap K V) (h : Nat) : Option Nat :=
  (m.buckets[h]?).getD none

/-- The bucket of the entry stored at index `i` (`get_hash` of its key);
out-of-range indices are mapped to the sentinel value `bucket_count()`,
which is never a real bucket. -/
def UMap.bktAt {K V : Type} (hash : K → Nat) (m : UMap K V) (i : Nat) : Nat :=
  match m.values[i]? with
  | some e => hash e.1 % m.bucketCount
  | none => m.bucketCount

/-- The default-constructed map: empty node store, empty bucket vector. -/
def UMap.empty (K V : Type) : UMap K V := ⟨[], []⟩

/-- Insert `x` immediately before position `p` (the effect of
`List::emplace(iter, ...)` on the sequence of stored values). -/
def insAt {α : Type} (p : Nat) (x : α) (l : List α) : List α :=
  l.take p ++ x :: l.drop p

/-- Renumbering of stored iterators after a node is linked in at position `p`:
a pointer to the node formerly at `i ≥ p` now denotes index `i + 1`; the end
sentinel is unaffected. -/
def shiftGE (p : Nat) (bs : List (Option Nat)) : List (Option Nat) :=
  bs.map (Option.map fun i => if p ≤ i then i + 1 else i)

/-- Renumbering of stored iterators after the node at position `p` is unlinked:
a pointer to the node formerly at `i > p` now denotes index `i - 1`. -/
def shiftGT (p : Nat) (bs : List (Option Nat)) : List (Option Nat) :=
  bs.map (Option.map fun i => if p < i then i - 1 else i)

section Ops

variable {K V : Type} [DecidableEq K] (hash : K → Nat)

/-- The scanning loop of the non-const `UnorderedMap::find`: walk forward from
the bucket head while the current node's own bucket equals `h`, testing key
equality; stop on a differing bucket or at the end of the store. -/
def bucketScan (bc h : Nat) (k : K) : List (K × V) → Nat → Option Nat
  | [], _ => none
  | e :: rest, i =>
    if hash e.1 % bc = h then
      if e.1 = k then some i else bucketScan bc h k rest (i + 1)
    else none

/-- Non-const `UnorderedMap::find`: `end()` on an empty map, otherwise scan the
bucket's contiguous run starting at `buckets_[get_hash(key)]`.  Returns the
index of the found node, or `none` for the end iterator. -/
def findIdx (m : UMap K V) (k : K) : Option Nat :=
  if m.values.isEmpty then none
  else
    match m.headAt (hash k % m.bucketCount) with
    | none => none
    | some p => bucketScan hash m.bucketCount (hash k % m.bucketCount) k (m.values.drop p) p

/-- The common shape of both linking branches of `emplace`: the new node goes
in at position `p` (the old head of its bucket, or `0` = the front of the
store for an empty bucket), every stored iterator to a node at index `≥ p`
now denotes the next index, and the bucket's head becomes the new node. -/
def place (m : UMap K V) (k : K) (v : V) (p : Nat) : UMap K V :=
  ⟨insAt p (k, v) m.values,
   (shiftGE p m.buckets).set (hash k % m.bucketCount) (some p)⟩

/-- The duplicate check and linking part of `emplace`, run after the capacity
check on the (possibly rehashed) map `m1`: return the existing node on a
duplicate key, otherwise link the new node immediately before the bucket's
head (`values_.emplace` + `--buckets_[hash]`), or at the front of the store
(`values_.emplace_front` + `buckets_[hash] = values_.begin()`) for an empty
bucket. -/
def emplaceCore (m1 : UMap K V) (k : K) (v : V) :
    Option (UMap K V × Option Nat × Bool) :=
  match findIdx hash m1 k with
  | some j => some (m1, some j, false)
  | none =>
    match m1.headAt (hash k % m1.bucketCount) with
    | none => some (place hash m1 k v 0, some 0, true)
    | some p => some (place hash m1 k v p, some p, true)

/-- The two mutually recursive operations, as one fuel-indexed function so
that the recursion is structural on the fuel: `emp` is
`UnorderedMap::emplace` (grow if `size()+1` exceeds
`bucket_count()*max_load_factor()`, then `emplaceCore`); `reh` is
`UnorderedMap::rehash` (clamp the target with the *truncated*
`size()/max_load_factor()`; no-op when the clamp equals the current bucket
count; otherwise drain all entries in order, reset the bucket vector, and
re-insert each entry through `insert`, which is `emplace` again).  The
rehash result reuses the triple shape with dummy second and third
components. -/
def engine : Nat → (UMap K V × K × V) ⊕ (UMap K V × Nat) →
    Option (UMap K V × Option Nat × Bool)
  | 0, _ => none
  | n + 1, Sum.inl (m, k, v) =>
    match (if m.size + 1 > (3 * m.bucketCount) / 4 then
             (engine n (Sum.inr (m, (4 * max 16 (2 * m.size) + 2) / 3))).map
               Prod.fst
           else some m) with
    | none => none
    | some m1 => emplaceCore hash m1 k v
  | n + 1, Sum.inr (m, c0) =>
    if max c0 ((4 * m.size) / 3) = m.bucketCount then some (m, none, false)
    else
      (m.values.foldlM
        (fun acc e => (engine n (Sum.inl (acc, e.1, e.2))).map Prod.fst)
        (⟨[], List.replicate (max c0 ((4 * m.size) / 3)) none⟩ : UMap K V)).map
        (fun m2 => (m2, none, false))

/-- `UnorderedMap::emplace(k, v)` at fuel `n`: the new map, the result
iterator, and the "a new entry was created" flag. -/
def emplaceF (n : Nat) (m : UMap K V) (k : K) (v : V) :
    Option (UMap K V × Option Nat × Bool) :=
  engine hash n (Sum.inl (m, k, v))

/-- `UnorderedMap::rehash(count)` at fuel `n`. -/
def rehashF (n : Nat) (m : UMap K V) (c0 : Nat) : Option (UMap K V) :=
  (engine hash n (Sum.inr (m, c0))).map Prod.fst

/-- The re-insertion loop at the end of `rehash` (`insert(std::move(item))`
for each drained entry, front to back), as a standalone recursion on the
holding list. -/
def reinsertF (n : Nat) : UMap K V → List (K × V) → Option (UMap K V)
  | m, [] => some m
  | m, e :: rest =>
    match emplaceF hash n m e.1 e.2 with
    | none => none
    | some (m', _, _) => reinsertF n m' rest

/-- `UnorderedMap::reserve(count)` — `rehash(std::ceil(count / max_load_factor()))`. -/
def reserveF (n : Nat) (m : UMap K V) (c : Nat) : Option (UMap K V) :=
  rehashF hash n m ((4 * c + 2) / 3)

/-- The tail of `UnorderedMap::erase(iter)` once the successor iterator
`r` has been computed: re-point the bucket head of the erased entry's bucket
`h` if the erased node at `i` was it (to the successor when that successor
still belongs to `h`, to `end()` otherwise), unlink the node, and return the
successor iterator (renumbered past the unlinked node). -/
def eraseBuckets (m : UMap K V) (i h : Nat) (r : Option Nat) : List (Option Nat) :=
  if m.headAt h = some i then
    match r with
    | some j =>
      if UMap.bktAt hash m j = h then m.buckets.set h (some j)
      else m.buckets.set h none
    | none => m.buckets.set h none
  else m.buckets

def eraseCore (m : UMap K V) (i h : Nat) (r : Option Nat) : UMap K V × Option Nat :=
  (⟨m.values.eraseIdx i, shiftGT i (eraseBuckets hash m i h r)⟩,
   r.map fun j => if i < j then j - 1 else j)

/-- `UnorderedMap::erase(iter)` for the entry at index `i`.  Mirrors the
source: remember the successor's node through a fresh `find`, then hand over
to `eraseCore`.  `none` models undefined behaviour (invalid iterator) or the
`assert(result != end())` firing. -/
def eraseStep (m : UMap K V) (i : Nat) : Option (UMap K V × Option Nat) :=
  match m.values[i]? with
  | none => none
  | some e =>
    match m.values[i + 1]? with
    | none => some (eraseCore hash m i (hash e.1 % m.bucketCount) none)
    | some e' =>
      match findIdx hash m e'.1 with
      | none => none
      | some j => some (eraseCore hash m i (hash e.1 % m.bucketCount) (some j))

end Ops

section ListLemmas

variable {α : Type}

theorem insAt_length (p : Nat) (x : α) (l : List α) (hp : p ≤ l.length) :
    (insAt p x l).length = l.length + 1 := by
  unfold insAt
  simp only [List.length_append, List.length_take, List.length_cons, List.length_drop]
  omega

theorem getElem?_insAt (p : Nat) (x : α) (l : List α) (i : Nat) (hp : p ≤ l.length) :
    (insAt p x l)[i]? =
      if i < p then l[i]? else if i = p then some x else l[i - 1]? := by
  induction p generalizing l i with
  | zero =>
    simp only [insAt, List.take_zero, List.nil_append, List.drop_zero]
    cases i with
    | zero => simp
    | succ j => simp
  | succ p ih =>
    match l with
    | [] => simp at hp
    | c :: l' =>
      simp only [insAt, List.take_succ_cons, List.drop_succ_cons, List.cons_append]
      cases i with
      | zero => simp
      | succ j =>
        have hp' : p ≤ l'.length := by simpa using hp
        have := ih l' j hp'
        simp only [insAt] at this
        simp only [List.getElem?_cons_succ, this]
        rcases Nat.lt_trichotomy j p with h | h | h
        · simp [h, Nat.succ_lt_succ h]
        · subst h; simp
        · obtain ⟨j', rfl⟩ : ∃ j', j = j' + 1 := ⟨j - 1, by omega⟩
          have h1 : ¬ j' + 1 < p := by omega
          have h2 : ¬ j' + 1 = p := by omega
          have h3 : ¬ j' + 1 + 1 < p + 1 := by omega
          have h4 : ¬ j' + 1 + 1 = p + 1 := by omega
          simp [h1, h2, h3, h4]

theorem insAt_perm (p : Nat) (x : α) (l : List α) : (insAt p x l).Perm (x :: l) := by
  have h := @List.perm_middle α x (l.take p) (l.drop p)
  simpa [insAt, List.take_append_drop] using h

theorem shiftGE_length (p : Nat) (bs : List (Option Nat)) :
    (shiftGE p bs).length = bs.length := by
  simp [shiftGE]

theorem shiftGT_length (p : Nat) (bs : List (Option Nat)) :
    (shiftGT p bs).length = bs.length := by
  simp [shiftGT]

theorem getElem?_shiftGE (p : Nat) (bs : List (Option Nat)) (q : Nat) :
    (shiftGE p bs)[q]? =
      (bs[q]?).map (Option.map fun i => if p ≤ i then i + 1 else i) := by
  simp [shiftGE]

theorem getElem?_shiftGT (p : Nat) (bs : List (Option Nat)) (q : Nat) :
    (shiftGT p bs)[q]? =
      (bs[q]?).map (Option.map fun i => if p < i then i - 1 else i) := by
  simp [shiftGT]

end ListLemmas

section MapLemmas

variable {K V : Type} [DecidableEq K] (hash : K → Nat)

theorem place_values (m : UMap K V) (k : K) (v : V) (p : Nat) :
    (place hash m k v p).values = insAt p (k, v) m.values := rfl

theorem place_buckets (m : UMap K V) (k : K) (v : V) (p : Nat) :
    (place hash m k v p).buckets =
      (shiftGE p m.buckets).set (hash k % m.bucketCount) (some p) := rfl

theorem place_bucketCount (m : UMap K V) (k : K) (v : V) (p : Nat) :
    (place hash m k v p).bucketCount = m.bucketCount := by
  simp [place, UMap.bucketCount, shiftGE]

theorem place_size (m : UMap K V) (k : K) (v : V) (p : Nat) (hp : p ≤ m.values.length) :
    (place hash m k v p).size = m.size + 1 := by
  simp [place, UMap.size, insAt_length p (k, v) m.values hp]

theorem place_perm (m : UMap K V) (k : K) (v : V) (p : Nat) :
    (place hash m k v p).values.Perm ((k, v) :: m.values) :=
  insAt_perm p (k, v) m.values

theorem place_bktAt (m : UMap K V) (k : K) (v : V) (p i : Nat)
    (hp : p ≤ m.values.length) :
    UMap.bktAt hash (place hash m k v p) i =
      if i < p then UMap.bktAt hash m i
      else if i = p then hash k % m.bucketCount
      else UMap.bktAt hash m (i - 1) := by
  have hbc := place_bucketCount hash m k v p
  unfold UMap.bktAt
  rw [place_values, getElem?_insAt p (k, v) m.values i hp, hbc]
  by_cases h1 : i < p
  · simp [h1]
  · by_cases h2 : i = p
    · simp [h1, h2]
    · simp [h1, h2]

theorem place_headAt_self (m : UMap K V) (k : K) (v : V) (p : Nat)
    (hbc : 0 < m.bucketCount) :
    (place hash m k v p).headAt (hash k % m.bucketCount) = some p := by
  unfold UMap.headAt
  rw [place_buckets]
  have hlt : hash k % m.bucketCount < (shiftGE p m.buckets).length := by
    rw [shiftGE_length]
    exact Nat.mod_lt _ hbc
  rw [List.getElem?_set]
  simp [hlt]

theorem place_headAt_ne (m : UMap K V) (k : K) (v : V) (p q : Nat)
    (hq : q ≠ hash k % m.bucketCount) :
    (place hash m k v p).headAt q =
      (m.headAt q).map (fun i => if p ≤ i then i + 1 else i) := by
  unfold UMap.headAt
  rw [place_buckets]
  rw [List.getElem?_set]
  simp only [shiftGE_length]
  rw [if_neg (fun h => hq h.symm)]
  rw [getElem?_shiftGE]
  cases m.buckets[q]? with
  | none => simp
  | some o => cases o <;> simp

theorem eraseShape_bktAt (m : UMap K V) (bs' : List (Option Nat))
    (hlen : bs'.length = m.buckets.length) (i j : Nat) (hi : i < m.values.length) :
    UMap.bktAt hash ⟨m.values.eraseIdx i, bs'⟩ j =
      if j < i then UMap.bktAt hash m j else UMap.bktAt hash m (j + 1) := by
  unfold UMap.bktAt
  have hbc : (⟨m.values.eraseIdx i, bs'⟩ : UMap K V).bucketCount = m.bucketCount := by
    simp [UMap.bucketCount, hlen]
  rw [hbc]
  by_cases h1 : j < i
  · rw [show ((⟨m.values.eraseIdx i, bs'⟩ : UMap K V).values) = m.values.eraseIdx i from rfl]
    rw [List.getElem?_eraseIdx_of_lt _ _ _ h1]
    simp [h1]
  · rw [show ((⟨m.values.eraseIdx i, bs'⟩ : UMap K V).values) = m.values.eraseIdx i from rfl]
    rw [List.getElem?_eraseIdx_of_ge _ _ _ (by omega)]
    simp [h1]

theorem shiftGT_headAt (bs : List (Option Nat)) (i q : Nat) :
    ((⟨(l : List (K × V)), shiftGT i bs⟩ : UMap K V).headAt q) =
      ((bs[q]?).getD none).map (fun j => if i < j then j - 1 else j) := by
  unfold UMap.headAt
  rw [show ((⟨l, shiftGT i bs⟩ : UMap K V).buckets) = shiftGT i bs from rfl]
  rw [getElem?_shiftGT]
  cases bs[q]? with
  | none => simp
  | some o => cases o <;> simp

end MapLemmas

section FindLemmas

variable {K V : Type} [DecidableEq K] (hash : K → Nat)

theorem bucketScan_sound (bc h : Nat) (k : K) :
    ∀ (l : List (K × V)) (i j : Nat), bucketScan hash bc h k l i = some j →
      ∃ off v, off < l.length ∧ j = i + off ∧ l[off]? = some (k, v) ∧
        hash k % bc = h := by
  intro l
  induction l with
  | nil => intro i j hj; simp [bucketScan] at hj
  | cons e rest ih =>
    intro i j hj
    by_cases hb : hash e.1 % bc = h
    · by_cases hk : e.1 = k
      · refine ⟨0, e.2, by simp, ?_, ?_, ?_⟩
        · simp [bucketScan, hb, hk] at hj
          omega
        · subst hk; simp
        · subst hk; exact hb
      · simp only [bucketScan, if_pos hb, if_neg hk] at hj
        obtain ⟨off, v, hoff, hj', hget, hh⟩ := ih (i + 1) j hj
        exact ⟨off + 1, v, by simpa using hoff, by omega, by simpa using hget, hh⟩
    · simp [bucketScan, hb] at hj

theorem findIdx_sound (m : UMap K V) (k : K) (j : Nat)
    (hj : findIdx hash m k = some j) :
    j < m.size ∧ ∃ v, m.values[j]? = some (k, v) := by
  unfold findIdx at hj
  split at hj
  · exact absurd hj (by simp)
  · revert hj
    match hh : m.headAt (hash k % m.bucketCount) with
    | none => intro hj; exact absurd hj (by simp)
    | some p =>
      intro hj
      obtain ⟨off, v, hoff, hj', hget, _⟩ :=
        bucketScan_sound hash m.bucketCount (hash k % m.bucketCount) k
          (m.values.drop p) p j hj
      rw [List.getElem?_drop] at hget
      have hlen : off < m.values.length - p := by simpa using hoff
      refine ⟨by simp only [UMap.size]; omega, v, ?_⟩
      rw [hj']
      exact hget

theorem bucketScan_complete (bc h : Nat) (k : K) :
    ∀ (l : List (K × V)) (i d : Nat),
      d < l.length →
      (∀ t, t ≤ d → ∃ e, l[t]? = some e ∧ hash e.1 % bc = h) →
      (∃ v, l[d]? = some (k, v)) →
      ∃ j, bucketScan hash bc h k l i = some j := by
  intro l
  induction l with
  | nil => intro i d hd; simp at hd
  | cons e rest ih =>
    intro i d hd hall hkey
    have h0 : hash e.1 % bc = h := by
      obtain ⟨e', he', hh⟩ := hall 0 (Nat.zero_le _)
      simp at he'
      subst he'
      exact hh
    by_cases hk : e.1 = k
    · have h0' : hash k % bc = h := hk ▸ h0
      exact ⟨i, by simp [bucketScan, h0', hk]⟩
    · match d with
      | 0 =>
        obtain ⟨v, hv⟩ := hkey
        simp at hv
        exact absurd (congrArg Prod.fst hv) (by simpa using hk)
      | d + 1 =>
        obtain ⟨j, hj⟩ := ih (i + 1) d (by simpa using hd)
          (fun t ht => by simpa using hall (t + 1) (by omega))
          (by simpa using hkey)
        exact ⟨j, by simp [bucketScan, h0, hk, hj]⟩

theorem getElem?_inj_of_nodup {α : Type} :
    ∀ (l : List α), l.Nodup → ∀ (i j : Nat) (a : α),
      l[i]? = some a → l[j]? = some a → i = j := by
  intro l
  induction l with
  | nil => intro _ i j a hi; simp at hi
  | cons x rest ih =>
    intro hnd i j a hi hj
    rw [List.nodup_cons] at hnd
    match i, j with
    | 0, 0 => rfl
    | 0, j + 1 =>
      simp at hi hj
      exact absurd (hi ▸ List.getElem?_mem hj : x ∈ rest) hnd.1
    | i + 1, 0 =>
      simp at hi hj
      exact absurd (hj ▸ List.getElem?_mem hi : x ∈ rest) hnd.1
    | i + 1, j + 1 =>
      simp at hi hj
      exact congrArg Nat.succ (ih hnd.2 i j a hi hj)

end FindLemmas

section Invariant

variable {K V : Type} [DecidableEq K] (hash : K → Nat)

/-- The contiguity invariant at one bucket `h` (§8 of the spec, claim C1):
if `head(h)` is empty no stored entry hashes to `h`; if `head(h)` is the node
at `p`, then `p` is in range, hashes to `h`, no entry before `p` hashes to
`h`, and every entry between `p` and any entry of bucket `h` also hashes to
`h` — i.e. the entries of bucket `h` are exactly the maximal run starting at
`head(h)`. -/
def ContigAt (m : UMap K V) (h : Nat) : Prop :=
  (m.headAt h = none → ∀ i, i < m.size → UMap.bktAt hash m i ≠ h) ∧
  (∀ p, m.headAt h = some p →
    p < m.size ∧ UMap.bktAt hash m p = h ∧
    (∀ i, i < p → UMap.bktAt hash m i ≠ h) ∧
    (∀ i, i < m.size → UMap.bktAt hash m i = h →
      ∀ t, t ≤ i → p ≤ t → UMap.bktAt hash m t = h))

instance decidableForallSomeNat {o : Option Nat} {P : Nat → Prop}
    [inst : ∀ p, Decidable (P p)] : Decidable (∀ p, o = some p → P p) :=
  match o with
  | none => isTrue (fun _ hp => nomatch hp)
  | some q =>
    match inst q with
    | isTrue hq => isTrue (fun _ hp => (Option.some.inj hp) ▸ hq)
    | isFalse hq => isFalse (fun hall => hq (hall q rfl))

instance (m : UMap K V) (h : Nat) : Decidable (ContigAt hash m h) := by
  unfold ContigAt
  infer_instance

/-- The full structural invariant of the container: a nonempty map has
buckets, the stored keys are pairwise distinct, and every bucket satisfies
the contiguity invariant. -/
def Wellformed (m : UMap K V) : Prop :=
  (m.size = 0 ∨ 0 < m.bucketCount) ∧
  m.keys.Nodup ∧
  ∀ h, h < m.bucketCount → ContigAt hash m h

instance (m : UMap K V) : Decidable (Wellformed hash m) := by
  unfold Wellformed
  infer_instance

theorem wf_bucketCount_pos {m : UMap K V} (wf : Wellformed hash m)
    (hne : 0 < m.size) : 0 < m.bucketCount := by
  rcases wf.1 with h | h
  · omega
  · exact h

theorem bktAt_lt_of_lt {m : UMap K V} (hbc : 0 < m.bucketCount) {i : Nat}
    (hi : i < m.size) : UMap.bktAt hash m i < m.bucketCount := by
  unfold UMap.bktAt
  have : i < m.values.length := hi
  match hv : m.values[i]? with
  | some e => exact Nat.mod_lt _ hbc
  | none =>
    rw [List.getElem?_eq_none_iff] at hv
    omega

/-- Under the invariant, an in-range entry's bucket has a head that is at or
before the entry, and everything from the head to the entry is in the same
bucket. -/
theorem wf_head_of_mem {m : UMap K V} (wf : Wellformed hash m) {i : Nat}
    (hi : i < m.size) :
    ∃ p, m.headAt (UMap.bktAt hash m i) = some p ∧ p ≤ i ∧
      ∀ t, t ≤ i → p ≤ t → UMap.bktAt hash m t = UMap.bktAt hash m i := by
  have hbc : 0 < m.bucketCount := wf_bucketCount_pos hash wf (by omega)
  have hh : UMap.bktAt hash m i < m.bucketCount := bktAt_lt_of_lt hash hbc hi
  have hc := wf.2.2 _ hh
  match hp : m.headAt (UMap.bktAt hash m i) with
  | none => exact absurd rfl (hc.1 hp i hi)
  | some p =>
    obtain ⟨hplt, hpb, hfirst, hcont⟩ := hc.2 p hp
    have hpi : p ≤ i := by
      by_contra hcon
      exact hfirst i (by omega) rfl
    exact ⟨p, rfl, hpi, fun t ht hpt => hcont i hi rfl t ht hpt⟩

end Invariant

section FindCorrect

variable {K V : Type} [DecidableEq K] (hash : K → Nat)

theorem bktAt_eq_of_getElem {m : UMap K V} {i : Nat} {e : K × V}
    (he : m.values[i]? = some e) :
    UMap.bktAt hash m i = hash e.1 % m.bucketCount := by
  unfold UMap.bktAt
  rw [he]

theorem getElem?_exists_of_lt {α : Type} {l : List α} {i : Nat} (hi : i < l.length) :
    ∃ a, l[i]? = some a := by
  match hv : l[i]? with
  | some a => exact ⟨a, rfl⟩
  | none =>
    rw [List.getElem?_eq_none_iff] at hv
    omega

theorem findIdx_complete {m : UMap K V} (wf : Wellformed hash m) {k : K}
    (hk : k ∈ m.keys) : ∃ j, findIdx hash m k = some j := by
  obtain ⟨e, hemem, hek⟩ := List.mem_map.mp hk
  obtain ⟨d, hd⟩ := List.getElem?_of_mem hemem
  have hdlt : d < m.values.length := by
    by_contra hcon
    rw [List.getElem?_eq_none_iff.mpr (by omega)] at hd
    exact Option.noConfusion hd
  have hbkt : UMap.bktAt hash m d = hash k % m.bucketCount := by
    rw [bktAt_eq_of_getElem hash hd, hek]
  obtain ⟨p, hhead, hpd, hrun⟩ := wf_head_of_mem hash wf (show d < m.size from hdlt)
  rw [hbkt] at hhead
  have hne : ¬ m.values.isEmpty := by
    rw [List.isEmpty_iff_length_eq_zero]
    omega
  obtain ⟨j, hj⟩ := bucketScan_complete hash m.bucketCount (hash k % m.bucketCount) k
      (m.values.drop p) p (d - p)
      (by rw [List.length_drop]; omega)
      (by
        intro t ht
        have htl : p + t < m.values.length := by omega
        obtain ⟨e', he'⟩ := getElem?_exists_of_lt htl
        refine ⟨e', by rw [List.getElem?_drop]; exact he', ?_⟩
        have := hrun (p + t) (by omega) (by omega)
        rw [hbkt, bktAt_eq_of_getElem hash he'] at this
        exact this)
      (⟨e.2, by
        rw [List.getElem?_drop, show p + (d - p) = d by omega, hd]
        cases e with
        | mk a b =>
          simp only at hek
          rw [hek]⟩)
  refine ⟨j, ?_⟩
  unfold findIdx
  rw [if_neg hne, hhead]
  exact hj

theorem findIdx_mem {m : UMap K V} {k : K} {j : Nat}
    (hj : findIdx hash m k = some j) : k ∈ m.keys := by
  obtain ⟨_, v, hv⟩ := findIdx_sound hash m k j hj
  exact List.mem_map.mpr ⟨(k, v), List.getElem?_mem hv, rfl⟩

theorem findIdx_none_iff {m : UMap K V} (wf : Wellformed hash m) (k : K) :
    findIdx hash m k = none ↔ k ∉ m.keys := by
  constructor
  · intro hn hk
    obtain ⟨j, hj⟩ := findIdx_complete hash wf hk
    rw [hn] at hj
    exact Option.noConfusion hj
  · intro hk
    match hf : findIdx hash m k with
    | none => rfl
    | some j => exact absurd (findIdx_mem hash hf) hk

end FindCorrect

section PlaceWF

variable {K V : Type} [DecidableEq K] (hash : K → Nat)

theorem place_getElem_self {m : UMap K V} {k : K} {v : V} {p : Nat}
    (hp : p ≤ m.values.length) :
    (place hash m k v p).values[p]? = some (k, v) := by
  rw [place_values, getElem?_insAt _ _ _ _ hp]
  simp

/-- Linking a fresh key `k` in at position `p` — where `p` is the old head of
`k`'s bucket, or `0` with that bucket previously empty — preserves the full
structural invariant. -/
theorem wf_place {m : UMap K V} {k : K} {v : V} {p : Nat}
    (wf : Wellformed hash m) (hbc : 0 < m.bucketCount) (hk : k ∉ m.keys)
    (hcase : (m.headAt (hash k % m.bucketCount) = none ∧ p = 0) ∨
             m.headAt (hash k % m.bucketCount) = some p) :
    Wellformed hash (place hash m k v p) := by
  have hms : m.size = m.values.length := rfl
  have hh0 : hash k % m.bucketCount < m.bucketCount := Nat.mod_lt _ hbc
  have hple : p ≤ m.values.length := by
    rcases hcase with ⟨_, rfl⟩ | hp
    · omega
    · have := ((wf.2.2 _ hh0).2 p hp).1
      omega
  have hsz := place_size hash m k v p hple
  have hbc2 := place_bucketCount hash m k v p
  have hbkt := fun i => place_bktAt hash m k v p i hple
  refine ⟨Or.inr (by omega), ?_, ?_⟩
  · have hperm : ((place hash m k v p).values.map Prod.fst).Perm (k :: m.keys) :=
      (place_perm hash m k v p).map Prod.fst
    show ((place hash m k v p).values.map Prod.fst).Nodup
    rw [hperm.nodup_iff, List.nodup_cons]
    exact ⟨hk, wf.2.1⟩
  · intro q hq
    rw [hbc2] at hq
    by_cases hqh : q = hash k % m.bucketCount
    · subst hqh
      constructor
      · intro hno
        rw [place_headAt_self hash m k v p hbc] at hno
        exact absurd hno (by simp)
      · intro p' hp'
        rw [place_headAt_self hash m k v p hbc] at hp'
        obtain rfl : p = p' := Option.some.inj hp'
        refine ⟨by omega, ?_, ?_, ?_⟩
        · rw [hbkt p]
          simp
        · intro i hip
          rw [hbkt i, if_pos hip]
          rcases hcase with ⟨_, rfl⟩ | hp
          · omega
          · exact ((wf.2.2 _ hh0).2 p hp).2.2.1 i hip
        · intro i hi hib t hti hpt
          by_cases htp : t = p
          · subst htp
            rw [hbkt t]
            simp
          · have htgt : p < t := by omega
            have higt : p < i := by omega
            rw [hbkt t, if_neg (by omega), if_neg (by omega)]
            rw [hbkt i, if_neg (by omega), if_neg (by omega)] at hib
            have hi1 : i - 1 < m.size := by
              rw [hsz] at hi
              omega
            rcases hcase with ⟨hno, rfl⟩ | hp
            · exact absurd hib ((wf.2.2 _ hh0).1 hno (i - 1) hi1)
            · exact ((wf.2.2 _ hh0).2 p hp).2.2.2 (i - 1) hi1 hib (t - 1)
                (by omega) (by omega)
    · have hcq := wf.2.2 q hq
      have hhead := place_headAt_ne hash m k v p q hqh
      constructor
      · intro hno
        rw [hhead] at hno
        have hqnone : m.headAt q = none := by
          match hmq : m.headAt q with
          | none => rfl
          | some r => rw [hmq] at hno; exact absurd hno (by simp)
        have hold := hcq.1 hqnone
        intro i hi
        rw [hbkt i]
        by_cases h1 : i < p
        · rw [if_pos h1]
          exact hold i (by omega)
        · by_cases h2 : i = p
          · rw [if_neg h1, if_pos h2]
            exact fun hcon => hqh hcon.symm
          · rw [if_neg h1, if_neg h2]
            have : i - 1 < m.size := by
              rw [hsz] at hi
              omega
            exact hold (i - 1) this
      · intro p' hp'
        rw [hhead] at hp'
        obtain ⟨r, hr, hfr⟩ := Option.map_eq_some'.mp hp'
        obtain ⟨hrlt, hrb, hrfirst, hrcont⟩ := hcq.2 r hr
        by_cases hpr : p ≤ r
        · -- the whole old run of bucket q sits at or after `p`: it shifts by one
          have hp2 : p' = r + 1 := by rw [← hfr, if_pos hpr]
          subst hp2
          refine ⟨by omega, ?_, ?_, ?_⟩
          · rw [hbkt (r + 1), if_neg (by omega), if_neg (by omega)]
            simpa using hrb
          · intro i hi
            rw [hbkt i]
            by_cases h1 : i < p
            · rw [if_pos h1]
              exact hrfirst i (by omega)
            · by_cases h2 : i = p
              · rw [if_neg h1, if_pos h2]
                exact fun hcon => hqh hcon.symm
              · rw [if_neg h1, if_neg h2]
                exact hrfirst (i - 1) (by omega)
          · intro i hi hib t hti hpt
            have htgt : p < t := by omega
            have higt : p < i := by omega
            rw [hbkt i, if_neg (by omega), if_neg (by omega)] at hib
            rw [hbkt t, if_neg (by omega), if_neg (by omega)]
            have hi1 : i - 1 < m.size := by
              rw [hsz] at hi
              omega
            exact hrcont (i - 1) hi1 hib (t - 1) (by omega) (by omega)
        · -- the old run of bucket q lies strictly before `p`: it is untouched
          have hp2 : p' = r := by rw [← hfr, if_neg hpr]
          rw [hp2]
          have hrp : r < p := by omega
          -- `p` is then the head of a different, nonempty bucket, so `0 < p`
          have hpcase : m.headAt (hash k % m.bucketCount) = some p := by
            rcases hcase with ⟨_, rfl⟩ | hp
            · omega
            · exact hp
          have hpb : UMap.bktAt hash m p = hash k % m.bucketCount :=
            ((wf.2.2 _ hh0).2 p hpcase).2.1
          have hnotafter : ∀ j, j < m.size → p ≤ j → UMap.bktAt hash m j ≠ q := by
            intro j hj hpj hcon
            have := hrcont j hj hcon p (by omega) (by omega)
            rw [hpb] at this
            exact hqh this.symm
          refine ⟨by omega, ?_, ?_, ?_⟩
          · rw [hbkt r, if_pos hrp]
            exact hrb
          · intro i hi
            rw [hbkt i, if_pos (by omega)]
            exact hrfirst i hi
          · intro i hi hib t hti hpt
            have hilt : i < p := by
              rcases Nat.lt_trichotomy i p with h | h | h
              · exact h
              · exfalso
                rw [hbkt i, if_neg (by omega), if_pos h] at hib
                exact hqh hib.symm
              · exfalso
                rw [hbkt i, if_neg (by omega), if_neg (by omega)] at hib
                exact hnotafter (i - 1) (by rw [hsz] at hi; omega) (by omega) hib
            rw [hbkt t, if_pos (by omega)]
            rw [hbkt i, if_pos hilt] at hib
            exact hrcont i (by omega) hib t hti hpt

end PlaceWF

section EraseWF

variable {K V : Type} [DecidableEq K] (hash : K → Nat)

theorem eraseBuckets_length (m : UMap K V) (i h : Nat) (r : Option Nat) :
    (eraseBuckets hash m i h r).length = m.buckets.length := by
  unfold eraseBuckets
  cases r with
  | none =>
    split
    · simp
    · rfl
  | some j =>
    split
    · dsimp only
      split
      · simp
      · simp
    · rfl

theorem eraseBuckets_get_ne (m : UMap K V) (i h : Nat) (r : Option Nat) (q : Nat)
    (hq : q ≠ h) :
    ((eraseBuckets hash m i h r)[q]?).getD none = m.headAt q := by
  unfold eraseBuckets UMap.headAt
  cases r with
  | none =>
    split
    · rw [List.getElem?_set_ne (fun hc => hq hc.symm)]
    · rfl
  | some j =>
    split
    · dsimp only
      split
      · rw [List.getElem?_set_ne (fun hc => hq hc.symm)]
      · rw [List.getElem?_set_ne (fun hc => hq hc.symm)]
    · rfl

theorem eraseBuckets_get_nothead (m : UMap K V) (i h : Nat) (r : Option Nat) (q : Nat)
    (hno : m.headAt h ≠ some i) :
    ((eraseBuckets hash m i h r)[q]?).getD none = m.headAt q := by
  unfold eraseBuckets
  rw [if_neg hno]
  rfl

theorem eraseBuckets_get_head (m : UMap K V) (i h : Nat) (r : Option Nat) (q : Nat)
    (hyes : m.headAt h = some i) (hlt : h < m.buckets.length) :
    ((eraseBuckets hash m i h r)[q]?).getD none =
      if q = h then
        (match r with
         | some j => if UMap.bktAt hash m j = h then some j else none
         | none => none)
      else m.headAt q := by
  by_cases hq : q = h
  · subst hq
    rw [if_pos rfl]
    unfold eraseBuckets
    rw [if_pos hyes]
    cases r with
    | none =>
      dsimp only
      rw [List.getElem?_set_self hlt]
      rfl
    | some j =>
      dsimp only
      split
      · rw [List.getElem?_set_self hlt]
        rfl
      · rw [List.getElem?_set_self hlt]
        rfl
  · rw [if_neg hq]
    exact eraseBuckets_get_ne hash m i h r q hq

/-- Erasing the entry at `i` (with the bucket `h0` of the erased entry and the
successor iterator `r₀` computed the way `erase` computes them) preserves the
full structural invariant. -/
theorem wf_eraseCore {m : UMap K V} (wf : Wellformed hash m) {i : Nat}
    (hi : i < m.size) {h0 : Nat} (hh0 : h0 = UMap.bktAt hash m i) {r₀ : Option Nat}
    (hr : (i + 1 < m.size ∧ r₀ = some (i + 1)) ∨ (i + 1 = m.size ∧ r₀ = none)) :
    Wellformed hash (eraseCore hash m i h0 r₀).1 := by
  have hms : m.size = m.values.length := rfl
  have hbc : 0 < m.bucketCount := wf_bucketCount_pos hash wf (by omega)
  have hblt : h0 < m.bucketCount := hh0 ▸ bktAt_lt_of_lt hash hbc hi
  have hlen1 : (eraseBuckets hash m i h0 r₀).length = m.buckets.length :=
    eraseBuckets_length hash m i h0 r₀
  have hm2 : (eraseCore hash m i h0 r₀).1 =
      ⟨m.values.eraseIdx i, shiftGT i (eraseBuckets hash m i h0 r₀)⟩ := rfl
  rw [hm2]
  have hsz' : (⟨m.values.eraseIdx i,
      shiftGT i (eraseBuckets hash m i h0 r₀)⟩ : UMap K V).size = m.size - 1 := by
    simp only [UMap.size]
    exact List.length_eraseIdx_of_lt (show i < m.values.length from hi)
  have hbc' : (⟨m.values.eraseIdx i,
      shiftGT i (eraseBuckets hash m i h0 r₀)⟩ : UMap K V).bucketCount = m.bucketCount := by
    simp only [UMap.bucketCount]
    rw [shiftGT_length, hlen1]
  have hbkt' : ∀ j, UMap.bktAt hash (⟨m.values.eraseIdx i,
      shiftGT i (eraseBuckets hash m i h0 r₀)⟩ : UMap K V) j =
      if j < i then UMap.bktAt hash m j else UMap.bktAt hash m (j + 1) :=
    fun j => eraseShape_bktAt hash m _ (by rw [shiftGT_length, hlen1]) i j hi
  have hhead' : ∀ q, (⟨m.values.eraseIdx i,
      shiftGT i (eraseBuckets hash m i h0 r₀)⟩ : UMap K V).headAt q =
      (((eraseBuckets hash m i h0 r₀)[q]?).getD none).map
        (fun j => if i < j then j - 1 else j) :=
    fun q => shiftGT_headAt (eraseBuckets hash m i h0 r₀) i q
  refine ⟨Or.inr (by rw [hbc']; exact hbc), ?_, ?_⟩
  · show ((m.values.eraseIdx i).map Prod.fst).Nodup
    exact wf.2.1.sublist ((m.values.eraseIdx_sublist i).map Prod.fst)
  · intro q hq
    rw [hbc'] at hq
    by_cases hqB : q = h0 ∧ m.headAt h0 = some i
    · obtain ⟨rfl, hheadB⟩ := hqB
      have hget := eraseBuckets_get_head hash m i q r₀ q hheadB
        (show q < m.buckets.length from hblt)
      rw [if_pos rfl] at hget
      obtain ⟨hilt, hib, hfirst, hcont⟩ := (wf.2.2 q hq).2 i hheadB
      rcases hr with ⟨hlt2, rfl⟩ | ⟨heq2, rfl⟩
      · dsimp only at hget
        by_cases hnb : UMap.bktAt hash m (i + 1) = q
        · rw [if_pos hnb] at hget
          constructor
          · intro hno
            rw [hhead' q, hget] at hno
            exact absurd hno (by simp)
          · intro p' hp'
            rw [hhead' q, hget] at hp'
            have hp2 : p' = i := by
              simp only [Option.map_some'] at hp'
              have h5 := Option.some.inj hp'
              rw [if_pos (show i < i + 1 by omega)] at h5
              omega
            subst hp2
            refine ⟨by rw [hsz']; omega, ?_, ?_, ?_⟩
            · rw [hbkt' p', if_neg (by omega)]
              exact hnb
            · intro j hj
              rw [hbkt' j, if_pos (by omega)]
              exact hfirst j hj
            · intro j hj hjb t htj hpt
              rw [hbkt' j, if_neg (by omega)] at hjb
              rw [hbkt' t, if_neg (by omega)]
              rw [hsz'] at hj
              exact hcont (j + 1) (by omega) hjb (t + 1) (by omega) (by omega)
        · rw [if_neg hnb] at hget
          have hnone : ∀ j, j < m.size → j ≠ i → UMap.bktAt hash m j ≠ q := by
            intro j hj hji hcon
            by_cases hjlt : j < i
            · exact hfirst j hjlt hcon
            · exact hnb (hcont j hj hcon (i + 1) (by omega) (by omega))
          constructor
          · intro _ j hj
            rw [hsz'] at hj
            rw [hbkt' j]
            by_cases h1 : j < i
            · rw [if_pos h1]
              exact hnone j (by omega) (by omega)
            · rw [if_neg h1]
              exact hnone (j + 1) (by omega) (by omega)
          · intro p' hp'
            rw [hhead' q, hget] at hp'
            exact absurd hp' (by simp)
      · dsimp only at hget
        have hnone : ∀ j, j < m.size → j ≠ i → UMap.bktAt hash m j ≠ q := by
          intro j hj hji hcon
          by_cases hjlt : j < i
          · exact hfirst j hjlt hcon
          · omega
        constructor
        · intro _ j hj
          rw [hsz'] at hj
          rw [hbkt' j]
          by_cases h1 : j < i
          · rw [if_pos h1]
            exact hnone j (by omega) (by omega)
          · rw [if_neg h1]
            exact hnone (j + 1) (by omega) (by omega)
        · intro p' hp'
          rw [hhead' q, hget] at hp'
          exact absurd hp' (by simp)
    · have hget : (((eraseBuckets hash m i h0 r₀)[q]?).getD none) = m.headAt q := by
        by_cases hq1 : q = h0
        · subst hq1
          exact eraseBuckets_get_nothead hash m i q r₀ q (fun hc => hqB ⟨rfl, hc⟩)
        · exact eraseBuckets_get_ne hash m i h0 r₀ q hq1
      have hcq := wf.2.2 q hq
      constructor
      · intro hno
        rw [hhead' q, hget] at hno
        have hqnone : m.headAt q = none := by
          match hmq : m.headAt q with
          | none => rfl
          | some u => rw [hmq] at hno; exact absurd hno (by simp)
        have hold := hcq.1 hqnone
        intro j hj
        rw [hsz'] at hj
        rw [hbkt' j]
        by_cases h1 : j < i
        · rw [if_pos h1]
          exact hold j (by omega)
        · rw [if_neg h1]
          exact hold (j + 1) (by omega)
      · intro p' hp'
        rw [hhead' q, hget] at hp'
        obtain ⟨u, hu, hgu⟩ := Option.map_eq_some'.mp hp'
        obtain ⟨hult, hub, hufirst, hucont⟩ := hcq.2 u hu
        have hui : u ≠ i := by
          intro hcon
          subst hcon
          have hq1 : q = h0 := by rw [hh0, hub]
          exact hqB ⟨hq1, hq1 ▸ hu⟩
        rcases Nat.lt_or_ge i u with hiu | hiu
        · -- the head survives one position earlier
          have hp2 : p' = u - 1 := by rw [← hgu, if_pos hiu]
          subst hp2
          refine ⟨by rw [hsz']; omega, ?_, ?_, ?_⟩
          · rw [hbkt' (u - 1), if_neg (by omega), show u - 1 + 1 = u from by omega]
            exact hub
          · intro j hj
            rw [hbkt' j]
            by_cases h1 : j < i
            · rw [if_pos h1]
              exact hufirst j (by omega)
            · rw [if_neg h1]
              exact hufirst (j + 1) (by omega)
          · intro j hj hjb t htj hpt
            rw [hsz'] at hj
            rw [hbkt' j, if_neg (by omega)] at hjb
            rw [hbkt' t, if_neg (by omega)]
            exact hucont (j + 1) (by omega) hjb (t + 1) (by omega) (by omega)
        · -- the head is before the erased node and keeps its index
          have hiu' : u < i := by omega
          have hp2 : p' = u := by rw [← hgu, if_neg (by omega)]
          subst hp2
          refine ⟨by rw [hsz']; omega, ?_, ?_, ?_⟩
          · rw [hbkt' p', if_pos hiu']
            exact hub
          · intro j hj
            rw [hbkt' j, if_pos (by omega)]
            exact hufirst j hj
          · intro j hj hjb t htj hpt
            rw [hsz'] at hj
            by_cases h1 : j < i
            · rw [hbkt' j, if_pos h1] at hjb
              rw [hbkt' t, if_pos (by omega)]
              exact hucont j (by omega) hjb t htj hpt
            · rw [hbkt' j, if_neg h1] at hjb
              by_cases h2 : t < i
              · rw [hbkt' t, if_pos h2]
                exact hucont (j + 1) (by omega) hjb t (by omega) hpt
              · rw [hbkt' t, if_neg h2]
                exact hucont (j + 1) (by omega) hjb (t + 1) (by omega) (by omega)

end EraseWF

section EraseStepSpec

variable {K V : Type} [DecidableEq K] (hash : K → Nat)

/-- `erase` on a valid iterator succeeds, returns the iterator to the
successor entry (`end()` when the erased entry was last), removes exactly
that entry, and preserves the invariant. -/
theorem eraseStep_spec {m : UMap K V} (wf : Wellformed hash m) {i : Nat}
    (hi : i < m.size) :
    ∃ m', eraseStep hash m i = some (m', if i + 1 < m.size then some i else none) ∧
      Wellformed hash m' ∧ m'.values = m.values.eraseIdx i := by
  obtain ⟨e, he⟩ := getElem?_exists_of_lt (show i < m.values.length from hi)
  by_cases h2 : i + 1 < m.size
  · obtain ⟨e', he'⟩ := getElem?_exists_of_lt (show i + 1 < m.values.length from h2)
    have hkmem : e'.1 ∈ m.keys := List.mem_map.mpr ⟨e', List.getElem?_mem he', rfl⟩
    obtain ⟨j, hj⟩ := findIdx_complete hash wf hkmem
    obtain ⟨hjlt, v'', hv⟩ := findIdx_sound hash m e'.1 j hj
    have hji : j = i + 1 := by
      refine getElem?_inj_of_nodup m.keys wf.2.1 j (i + 1) e'.1 ?_ ?_
      · show (m.values.map Prod.fst)[j]? = some e'.1
        rw [List.getElem?_map, hv]
        rfl
      · show (m.values.map Prod.fst)[i + 1]? = some e'.1
        rw [List.getElem?_map, he']
        rfl
    subst hji
    have hstep : eraseStep hash m i =
        some (eraseCore hash m i (hash e.1 % m.bucketCount) (some (i + 1))) := by
      unfold eraseStep
      rw [he]
      dsimp only
      rw [he']
      dsimp only
      rw [hj]
    refine ⟨(eraseCore hash m i (hash e.1 % m.bucketCount) (some (i + 1))).1, ?_, ?_, rfl⟩
    · rw [hstep, if_pos h2]
      unfold eraseCore
      dsimp only
      rw [Option.map_some', if_pos (show i < i + 1 by omega)]
      rfl
    · exact wf_eraseCore hash wf hi (bktAt_eq_of_getElem hash he).symm
        (Or.inl ⟨h2, rfl⟩)
  · have hsz : i + 1 = m.size := by omega
    have hms : m.size = m.values.length := rfl
    have he1 : m.values[i + 1]? = none := by
      rw [List.getElem?_eq_none_iff]
      omega
    have hstep : eraseStep hash m i =
        some (eraseCore hash m i (hash e.1 % m.bucketCount) none) := by
      unfold eraseStep
      rw [he]
      dsimp only
      rw [he1]
    refine ⟨(eraseCore hash m i (hash e.1 % m.bucketCount) none).1, ?_, ?_, rfl⟩
    · rw [hstep, if_neg h2]
      rfl
    · exact wf_eraseCore hash wf hi (bktAt_eq_of_getElem hash he).symm
        (Or.inr ⟨hsz, rfl⟩)

/-- Anything `eraseStep` returns removes exactly the entry at `i` and is
well-formed (companion to `eraseStep_spec` for arbitrary results). -/
theorem eraseStep_wf {m m' : UMap K V} {i : Nat} {r : Option Nat}
    (wf : Wellformed hash m) (hstep : eraseStep hash m i = some (m', r)) :
    Wellformed hash m' ∧ m'.values = m.values.eraseIdx i ∧ i < m.size := by
  have hi : i < m.size := by
    by_contra hcon
    have : m.values[i]? = none := by
      rw [List.getElem?_eq_none_iff]
      simp only [UMap.size] at hcon
      omega
    unfold eraseStep at hstep
    rw [this] at hstep
    exact Option.noConfusion hstep
  obtain ⟨m'', hstep', hwf, hvals⟩ := eraseStep_spec hash wf hi
  rw [hstep] at hstep'
  obtain ⟨rfl, -⟩ : m' = m'' ∧ r = _ := by
    have := Option.some.inj hstep'
    exact ⟨congrArg Prod.fst this, congrArg Prod.snd this⟩
  exact ⟨hwf, hvals, hi⟩

end EraseStepSpec

section MasterSpec

variable {K V : Type} [DecidableEq K] (hash : K → Nat)

theorem emplaceF_succ (n : Nat) (m : UMap K V) (k : K) (v : V) :
    emplaceF hash (n + 1) m k v =
      match (if m.size + 1 > (3 * m.bucketCount) / 4 then
               rehashF hash n m ((4 * max 16 (2 * m.size) + 2) / 3)
             else some m) with
      | none => none
      | some m1 => emplaceCore hash m1 k v := rfl

theorem reinsertF_eq_foldlM (n : Nat) :
    ∀ (l : List (K × V)) (m0 : UMap K V),
      reinsertF hash n m0 l =
        l.foldlM
          (fun acc e => (engine hash n (Sum.inl (acc, e.1, e.2))).map Prod.fst)
          m0 := by
  intro l
  induction l with
  | nil => intro m0; rfl
  | cons e rest ih =>
    intro m0
    show (match emplaceF hash n m0 e.1 e.2 with
          | none => none
          | some (m', _, _) => reinsertF hash n m' rest) = _
    rw [List.foldlM_cons]
    cases hx : emplaceF hash n m0 e.1 e.2 with
    | none =>
      have h1 : (engine hash n (Sum.inl (m0, e.1, e.2))).map Prod.fst = none := by
        rw [show engine hash n (Sum.inl (m0, e.1, e.2))
            = emplaceF hash n m0 e.1 e.2 from rfl, hx]
        rfl
      rw [h1]
      rfl
    | some x =>
      obtain ⟨m1, r, b⟩ := x
      have h1 : (engine hash n (Sum.inl (m0, e.1, e.2))).map Prod.fst = some m1 := by
        rw [show engine hash n (Sum.inl (m0, e.1, e.2))
            = emplaceF hash n m0 e.1 e.2 from rfl, hx]
        rfl
      rw [h1]
      show reinsertF hash n m1 rest = _
      exact ih m1

theorem rehashF_succ (n : Nat) (m : UMap K V) (c0 : Nat) :
    rehashF hash (n + 1) m c0 =
      if max c0 ((4 * m.size) / 3) = m.bucketCount then some m
      else
        reinsertF hash n
          (⟨[], List.replicate (max c0 ((4 * m.size) / 3)) none⟩ : UMap K V)
          m.values := by
  by_cases hc : max c0 ((4 * m.size) / 3) = m.bucketCount
  · rw [if_pos hc]
    show ((if max c0 ((4 * m.size) / 3) = m.bucketCount then
        some (m, none, false)
      else
        (m.values.foldlM
          (fun acc e => (engine hash n (Sum.inl (acc, e.1, e.2))).map Prod.fst)
          (⟨[], List.replicate (max c0 ((4 * m.size) / 3)) none⟩ : UMap K V)).map
          (fun m2 => (m2, none, false))) :
        Option (UMap K V × Option Nat × Bool)).map Prod.fst = some m
    rw [if_pos hc]
    rfl
  · rw [if_neg hc]
    show ((if max c0 ((4 * m.size) / 3) = m.bucketCount then
        some (m, none, false)
      else
        (m.values.foldlM
          (fun acc e => (engine hash n (Sum.inl (acc, e.1, e.2))).map Prod.fst)
          (⟨[], List.replicate (max c0 ((4 * m.size) / 3)) none⟩ : UMap K V)).map
          (fun m2 => (m2, none, false))) :
        Option (UMap K V × Option Nat × Bool)).map Prod.fst = _
    rw [if_neg hc, reinsertF_eq_foldlM]
    cases m.values.foldlM
        (fun acc e => (engine hash n (Sum.inl (acc, e.1, e.2))).map Prod.fst)
        (⟨[], List.replicate (max c0 ((4 * m.size) / 3)) none⟩ : UMap K V) with
    | none => rfl
    | some m2 => rfl

/-- Everything `emplace` guarantees at fuel `n`: the result is well-formed
with a nonzero bucket count; on creation the values gain exactly the new
entry (up to reordering from a growth rehash), the key was fresh, and the
returned iterator denotes the new entry; on a duplicate the values are
preserved and the iterator denotes the existing entry for the key; and if no
growth was needed the bucket count is unchanged. -/
def EmplaceSpec (W : Type) (n : Nat) : Prop :=
  ∀ (m m' : UMap K W) (k : K) (v : W) (r : Option Nat) (b : Bool),
    Wellformed hash m → emplaceF hash n m k v = some (m', r, b) →
    Wellformed hash m' ∧ 0 < m'.bucketCount ∧
    (b = true → m'.values.Perm ((k, v) :: m.values) ∧ k ∉ m.keys ∧
      ∃ p, r = some p ∧ m'.values[p]? = some (k, v)) ∧
    (b = false → m'.values.Perm m.values ∧
      ∃ j v', r = some j ∧ m'.values[j]? = some (k, v') ∧ (k, v') ∈ m.values) ∧
    (¬ (m.size + 1 > (3 * m.bucketCount) / 4) → m'.bucketCount = m.bucketCount)

/-- Everything `rehash` guarantees at fuel `n`: well-formedness and the
multiset of entries are preserved, the bucket count is positive whenever the
clamped target is, and a clamped target equal to the current bucket count is
a strict no-op. -/
def RehashSpec (W : Type) (n : Nat) : Prop :=
  ∀ (m m' : UMap K W) (c0 : Nat),
    Wellformed hash m → rehashF hash n m c0 = some m' →
    Wellformed hash m' ∧ m'.values.Perm m.values ∧
    (0 < max c0 ((4 * m.size) / 3) → 0 < m'.bucketCount) ∧
    (max c0 ((4 * m.size) / 3) = m.bucketCount → m' = m)

/-- Everything the re-insertion loop guarantees at fuel `n`, for a batch of
keys disjoint from the current contents. -/
def ReinsertSpec (W : Type) (n : Nat) : Prop :=
  ∀ (m m' : UMap K W) (l : List (K × W)),
    Wellformed hash m → (m.keys ++ l.map Prod.fst).Nodup →
    reinsertF hash n m l = some m' →
    Wellformed hash m' ∧ m'.values.Perm (m.values ++ l) ∧
    ((0 < m.bucketCount ∨ l ≠ []) → 0 < m'.bucketCount)

theorem wf_emptyWith (c : Nat) :
    Wellformed hash (⟨[], List.replicate c none⟩ : UMap K V) := by
  refine ⟨Or.inl rfl, by simp [UMap.keys], ?_⟩
  intro h _
  have hnone : (⟨[], List.replicate c none⟩ : UMap K V).headAt h = none := by
    unfold UMap.headAt
    rw [show (⟨[], List.replicate c none⟩ : UMap K V).buckets
        = List.replicate c none from rfl]
    rw [List.getElem?_replicate]
    split <;> rfl
  constructor
  · intro _ i hi
    exact absurd hi (by simp [UMap.size])
  · intro p hp
    rw [hnone] at hp
    exact Option.noConfusion hp

theorem emplaceSpec_zero : EmplaceSpec hash V 0 := by
  intro m m' k v r b _ hrun
  exact Option.noConfusion hrun

theorem rehashSpec_zero : RehashSpec hash V 0 := by
  intro m m' c0 _ hrun
  exact Option.noConfusion hrun

theorem reinsertSpec_of_emplaceSpec (n : Nat) (he : EmplaceSpec hash V n) :
    ReinsertSpec hash V n := by
  intro m m' l
  induction l generalizing m with
  | nil =>
    intro wf _ hrun
    obtain rfl : m = m' := Option.some.inj hrun
    refine ⟨wf, by simp, ?_⟩
    rintro (h | h)
    · exact h
    · exact absurd rfl h
  | cons e rest ih =>
    intro wf hnd hrun
    rw [show reinsertF hash n m (e :: rest) =
        (match emplaceF hash n m e.1 e.2 with
         | none => none
         | some (m1, _, _) => reinsertF hash n m1 rest) from rfl] at hrun
    revert hrun
    match hemp : emplaceF hash n m e.1 e.2 with
    | none => intro hrun; exact Option.noConfusion hrun
    | some (m1, r, b) =>
      intro hrun
      obtain ⟨wf1, hbc1, htrue, hfalse, -⟩ := he m m1 e.1 e.2 r b wf hemp
      cases b with
      | false =>
        obtain ⟨-, j, v', -, -, hmem⟩ := hfalse rfl
        have hin : e.1 ∈ m.keys := List.mem_map.mpr ⟨(e.1, v'), hmem, rfl⟩
        have hdisj := List.disjoint_of_nodup_append hnd
        exact absurd (hdisj hin (by simp)) (fun h => h)
      | true =>
        obtain ⟨hperm1, hnotin, p, hrp, hgetp⟩ := htrue rfl
        have hkeys1 : m1.keys.Perm (e.1 :: m.keys) := by
          have h5 := hperm1.map Prod.fst
          simpa [UMap.keys] using h5
        have hnd1 : (m1.keys ++ rest.map Prod.fst).Nodup := by
          have hp2 : (m1.keys ++ rest.map Prod.fst).Perm
              (m.keys ++ e.1 :: rest.map Prod.fst) :=
            (hkeys1.append_right _).trans List.perm_middle.symm
          exact hp2.nodup_iff.mpr hnd
        obtain ⟨wf2, hperm2, hbc2⟩ := ih m1 wf1 hnd1 hrun
        refine ⟨wf2, ?_, fun _ => hbc2 (Or.inl hbc1)⟩
        have h6 : (m1.values ++ rest).Perm ((e :: m.values) ++ rest) := by
          have h7 : ((e.1, e.2) : K × V) = e := rfl
          exact (hperm1.append_right rest).trans (by rw [← h7])
        exact hperm2.trans (h6.trans List.perm_middle.symm)

theorem rehashSpec_succ (n : Nat) (hri : ReinsertSpec hash V n) :
    RehashSpec hash V (n + 1) := by
  intro m m' c0 wf hrun
  rw [rehashF_succ] at hrun
  by_cases hc : max c0 ((4 * m.size) / 3) = m.bucketCount
  · rw [if_pos hc] at hrun
    obtain rfl : m = m' := Option.some.inj hrun
    exact ⟨wf, List.Perm.refl _, fun h => hc ▸ h, fun _ => rfl⟩
  · rw [if_neg hc] at hrun
    have hwfbase : Wellformed hash
        (⟨[], List.replicate (max c0 ((4 * m.size) / 3)) none⟩ : UMap K V) :=
      wf_emptyWith hash _
    have hnd : ((⟨[], List.replicate (max c0 ((4 * m.size) / 3)) none⟩ :
        UMap K V).keys ++ m.values.map Prod.fst).Nodup := by
      simpa [UMap.keys] using wf.2.1
    obtain ⟨wf2, hperm2, hbc2⟩ := hri _ m' m.values hwfbase hnd hrun
    refine ⟨wf2, by simpa using hperm2, ?_, fun h => absurd h hc⟩
    intro hpos
    apply hbc2
    left
    show 0 < (List.replicate (max c0 ((4 * m.size) / 3)) (none : Option Nat)).length
    simpa using hpos

/-- The duplicate-check and placement part of `emplace`, shared by the
growth and no-growth paths: `m1` is the (possibly rehashed) map the check
runs on. -/
theorem emplaceCore_spec {m m1 m' : UMap K V} {k : K} {v : V} {r : Option Nat}
    {b : Bool}
    (wf1 : Wellformed hash m1) (hbc1 : 0 < m1.bucketCount)
    (hperm1 : m1.values.Perm m.values)
    (hpres : ¬ (m.size + 1 > (3 * m.bucketCount) / 4) →
      m1.bucketCount = m.bucketCount)
    (hrun : emplaceCore hash m1 k v = some (m', r, b)) :
    Wellformed hash m' ∧ 0 < m'.bucketCount ∧
    (b = true → m'.values.Perm ((k, v) :: m.values) ∧ k ∉ m.keys ∧
      ∃ p, r = some p ∧ m'.values[p]? = some (k, v)) ∧
    (b = false → m'.values.Perm m.values ∧
      ∃ j v', r = some j ∧ m'.values[j]? = some (k, v') ∧ (k, v') ∈ m.values) ∧
    (¬ (m.size + 1 > (3 * m.bucketCount) / 4) →
      m'.bucketCount = m.bucketCount) := by
  unfold emplaceCore at hrun
  revert hrun
  match hfind : findIdx hash m1 k with
  | some j =>
    intro hrun
    have h6 := Option.some.inj hrun
    obtain ⟨rfl, rfl, rfl⟩ : m1 = m' ∧ some j = r ∧ false = b := by
      simpa using h6
    refine ⟨wf1, hbc1, ?_, ?_, ?_⟩
    · intro hb
      exact absurd hb (by simp)
    · intro _
      obtain ⟨hjlt, v', hv⟩ := findIdx_sound hash m1 k j hfind
      exact ⟨hperm1, j, v', rfl, hv, hperm1.mem_iff.mp (List.getElem?_mem hv)⟩
    · intro hng
      exact hpres hng
  | none =>
    intro hrun
    have hnotin1 : k ∉ m1.keys := (findIdx_none_iff hash wf1 k).mp hfind
    have hnotin : k ∉ m.keys := fun hc =>
      hnotin1 (((hperm1.map Prod.fst).mem_iff).mpr hc)
    revert hrun
    match hhd : m1.headAt (hash k % m1.bucketCount) with
    | none =>
      intro hrun
      have h6 := Option.some.inj hrun
      obtain ⟨h7, h8, h9⟩ : place hash m1 k v 0 = m'
          ∧ (some 0 : Option Nat) = r ∧ true = b := by
        simpa using h6
      subst h7
      subst h8
      subst h9
      refine ⟨wf_place hash wf1 hbc1 hnotin1 (Or.inl ⟨hhd, rfl⟩), ?_, ?_, ?_, ?_⟩
      · rw [place_bucketCount]
        exact hbc1
      · intro _
        exact ⟨(place_perm hash m1 k v 0).trans (hperm1.cons _), hnotin, 0, rfl,
          place_getElem_self hash (Nat.zero_le _)⟩
      · intro hb
        exact absurd hb (by simp)
      · intro hng
        rw [place_bucketCount]
        exact hpres hng
    | some p =>
      intro hrun
      have h6 := Option.some.inj hrun
      obtain ⟨h7, h8, h9⟩ : place hash m1 k v p = m'
          ∧ (some p : Option Nat) = r ∧ true = b := by
        simpa using h6
      have hple : p ≤ m1.values.length := by
        have h10 := ((wf1.2.2 _ (Nat.mod_lt _ hbc1)).2 p hhd).1
        exact Nat.le_of_lt h10
      subst h7
      subst h8
      subst h9
      refine ⟨wf_place hash wf1 hbc1 hnotin1 (Or.inr hhd), ?_, ?_, ?_, ?_⟩
      · rw [place_bucketCount]
        exact hbc1
      · intro _
        exact ⟨(place_perm hash m1 k v p).trans (hperm1.cons _), hnotin, p, rfl,
          place_getElem_self hash hple⟩
      · intro hb
        exact absurd hb (by simp)
      · intro hng
        rw [place_bucketCount]
        exact hpres hng

theorem emplaceSpec_succ (n : Nat) (hr : RehashSpec hash V n) :
    EmplaceSpec hash V (n + 1) := by
  intro m m' k v r b wf hrun
  rw [emplaceF_succ] at hrun
  revert hrun
  by_cases hg : m.size + 1 > (3 * m.bucketCount) / 4
  · rw [if_pos hg]
    match hre : rehashF hash n m ((4 * max 16 (2 * m.size) + 2) / 3) with
    | none => intro hrun; exact Option.noConfusion hrun
    | some m1 =>
      intro hrun
      obtain ⟨wf1, hperm1, hbcmax, -⟩ := hr m m1 _ wf hre
      have hbc1 : 0 < m1.bucketCount := by
        apply hbcmax
        have h16 : 16 ≤ max 16 (2 * m.size) := Nat.le_max_left _ _
        have h22 : 22 ≤ (4 * max 16 (2 * m.size) + 2) / 3 := by omega
        omega
      exact emplaceCore_spec hash wf1 hbc1 hperm1 (fun hcon => absurd hg hcon) hrun
  · rw [if_neg hg]
    intro hrun
    have hbc1 : 0 < m.bucketCount := by
      by_contra hcon
      have h0 : m.bucketCount = 0 := by omega
      rw [h0] at hg
      omega
    exact emplaceCore_spec hash wf hbc1 (List.Perm.refl _) (fun _ => rfl) hrun

theorem masterSpec : ∀ n, EmplaceSpec hash V n ∧ RehashSpec hash V n := by
  intro n
  induction n with
  | zero => exact ⟨emplaceSpec_zero hash, rehashSpec_zero hash⟩
  | succ n ih =>
    exact ⟨emplaceSpec_succ hash n ih.2,
           rehashSpec_succ hash n (reinsertSpec_of_emplaceSpec hash n ih.1)⟩

/-- User-facing form of the `emplace` specification. -/
theorem emplaceF_spec {n : Nat} {m m' : UMap K V} {k : K} {v : V}
    {r : Option Nat} {b : Bool} (wf : Wellformed hash m)
    (hrun : emplaceF hash n m k v = some (m', r, b)) :
    Wellformed hash m' ∧ 0 < m'.bucketCount ∧
    (b = true → m'.values.Perm ((k, v) :: m.values) ∧ k ∉ m.keys ∧
      ∃ p, r = some p ∧ m'.values[p]? = some (k, v)) ∧
    (b = false → m'.values.Perm m.values ∧
      ∃ j v', r = some j ∧ m'.values[j]? = some (k, v') ∧ (k, v') ∈ m.values) ∧
    (¬ (m.size + 1 > (3 * m.bucketCount) / 4) → m'.bucketCount = m.bucketCount) :=
  (masterSpec hash n).1 m m' k v r b wf hrun

/-- User-facing form of the `rehash` specification. -/
theorem rehashF_spec {n : Nat} {m m' : UMap K V} {c0 : Nat}
    (wf : Wellformed hash m) (hrun : rehashF hash n m c0 = some m') :
    Wellformed hash m' ∧ m'.values.Perm m.values ∧
    (0 < max c0 ((4 * m.size) / 3) → 0 < m'.bucketCount) ∧
    (max c0 ((4 * m.size) / 3) = m.bucketCount → m' = m) :=
  (masterSpec hash n).2 m m' c0 wf hrun

/-- User-facing form of the re-insertion specification. -/
theorem reinsertF_spec {n : Nat} {m m' : UMap K V} {l : List (K × V)}
    (wf : Wellformed hash m) (hnd : (m.keys ++ l.map Prod.fst).Nodup)
    (hrun : reinsertF hash n m l = some m') :
    Wellformed hash m' ∧ m'.values.Perm (m.values ++ l) ∧
    ((0 < m.bucketCount ∨ l ≠ []) → 0 < m'.bucketCount) :=
  reinsertSpec_of_emplaceSpec hash n (masterSpec hash n).1 m m' l wf hnd hrun

end MasterSpec

section Helpers

variable {K V : Type} [DecidableEq K] (hash : K → Nat)

/-- With pairwise-distinct keys, a key determines its mapped value. -/
theorem value_unique {l : List (K × V)} (hnd : (l.map Prod.fst).Nodup)
    {k : K} {a b : V} (ha : (k, a) ∈ l) (hb : (k, b) ∈ l) : a = b := by
  obtain ⟨i, hi⟩ := List.getElem?_of_mem ha
  obtain ⟨j, hj⟩ := List.getElem?_of_mem hb
  have hij : i = j := by
    refine getElem?_inj_of_nodup (l.map Prod.fst) hnd i j k ?_ ?_
    · rw [List.getElem?_map, hi]; rfl
    · rw [List.getElem?_map, hj]; rfl
  subst hij
  rw [hi] at hj
  exact (Prod.mk.injEq _ _ _ _).mp (Option.some.inj hj) |>.2

/-- Under the invariant, `find` on a stored key returns exactly that key's
entry. -/
theorem find_entry {m : UMap K V} (wf : Wellformed hash m) {k : K} {v : V}
    (hmem : (k, v) ∈ m.values) :
    ∃ j, findIdx hash m k = some j ∧ m.values[j]? = some (k, v) := by
  have hk : k ∈ m.keys := List.mem_map.mpr ⟨(k, v), hmem, rfl⟩
  obtain ⟨j, hj⟩ := findIdx_complete hash wf hk
  obtain ⟨hjlt, v', hv'⟩ := findIdx_sound hash m k j hj
  have hv1 : v' = v :=
    value_unique wf.2.1 (List.getElem?_mem hv') hmem
  exact ⟨j, hj, hv1 ▸ hv'⟩

/-- If the batch fits under the load-factor threshold, the re-insertion loop
never triggers a growth rehash and the bucket count is unchanged. -/
theorem reinsert_noGrow (n : Nat) :
    ∀ (l : List (K × V)) (m m' : UMap K V), Wellformed hash m →
      (m.keys ++ l.map Prod.fst).Nodup →
      m.size + l.length ≤ (3 * m.bucketCount) / 4 →
      reinsertF hash n m l = some m' → m'.bucketCount = m.bucketCount := by
  intro l
  induction l with
  | nil =>
    intro m m' _ _ _ hrun
    obtain rfl : m = m' := Option.some.inj hrun
    rfl
  | cons e rest ih =>
    intro m m' wf hnd hload hrun
    rw [show reinsertF hash n m (e :: rest) =
        (match emplaceF hash n m e.1 e.2 with
         | none => none
         | some (m1, _, _) => reinsertF hash n m1 rest) from rfl] at hrun
    revert hrun
    match hemp : emplaceF hash n m e.1 e.2 with
    | none => intro hrun; exact Option.noConfusion hrun
    | some (m1, r, b) =>
      intro hrun
      obtain ⟨wf1, hbc1, htrue, hfalse, hpres⟩ := emplaceF_spec hash wf hemp
      have hng : ¬ (m.size + 1 > (3 * m.bucketCount) / 4) := by
        simp only [List.length_cons] at hload
        omega
      have hbceq : m1.bucketCount = m.bucketCount := hpres hng
      cases b with
      | false =>
        obtain ⟨-, j, v', -, -, hmem⟩ := hfalse rfl
        have hin : e.1 ∈ m.keys := List.mem_map.mpr ⟨(e.1, v'), hmem, rfl⟩
        have hdisj := List.disjoint_of_nodup_append hnd
        exact absurd (hdisj hin (by simp)) (fun h => h)
      | true =>
        obtain ⟨hperm1, hnotin, p, hrp, hgetp⟩ := htrue rfl
        have hsz1 : m1.size = m.size + 1 := by
          have := hperm1.length_eq
          simpa [UMap.size] using this
        have hkeys1 : m1.keys.Perm (e.1 :: m.keys) := by
          have h5 := hperm1.map Prod.fst
          simpa [UMap.keys] using h5
        have hnd1 : (m1.keys ++ rest.map Prod.fst).Nodup := by
          have hp2 : (m1.keys ++ rest.map Prod.fst).Perm
              (m.keys ++ e.1 :: rest.map Prod.fst) :=
            (hkeys1.append_right _).trans List.perm_middle.symm
          exact hp2.nodup_iff.mpr hnd
        have hload1 : m1.size + rest.length ≤ (3 * m1.bucketCount) / 4 := by
          rw [hsz1, hbceq]
          simp only [List.length_cons] at hload
          omega
        have := ih m1 m' wf1 hnd1 hload1 hrun
        rw [this, hbceq]

theorem wf_empty : Wellformed hash (UMap.empty K V) :=
  wf_emptyWith hash 0

end Helpers

/-- The maps reachable from a default-constructed map by the mutating
operations of the container (the claims quantify over these). -/
inductive Reachable {K V : Type} [DecidableEq K] (hash : K → Nat) :
    UMap K V → Prop where
  | empty : Reachable hash (UMap.empty K V)
  | emplace {m m' : UMap K V} {r : Option Nat} {b : Bool} (n : Nat) (k : K)
      (v : V) (hm : Reachable hash m)
      (hrun : emplaceF hash n m k v = some (m', r, b)) : Reachable hash m'
  | erase {m m' : UMap K V} {r : Option Nat} (i : Nat) (hm : Reachable hash m)
      (hrun : eraseStep hash m i = some (m', r)) : Reachable hash m'
  | rehash {m m' : UMap K V} (n c : Nat) (hm : Reachable hash m)
      (hrun : rehashF hash n m c = some m') : Reachable hash m'

/-- Every reachable map satisfies the full structural invariant. -/
theorem reachable_wf {K V : Type} [DecidableEq K] (hash : K → Nat)
    {m : UMap K V} (hm : Reachable hash m) : Wellformed hash m := by
  induction hm with
  | empty => exact wf_empty hash
  | emplace n k v hm hrun ih => exact (emplaceF_spec hash ih hrun).1
  | erase i hm hrun ih => exact (eraseStep_wf hash ih hrun).1
  | rehash n c hm hrun ih => exact (rehashF_spec hash ih hrun).1

/-- `std::hash` for an unsigned integer key: the identity, as in libstdc++. -/
def natHash : Nat → Nat := fun k => k

section ConstFind

variable {K V : Type} [DecidableEq K]

/-- `operator++` of a `List` iterator on the circular list: the sentinel
follows the last node and the first node follows the sentinel. -/
def circSucc (n : Nat) : Option Nat → Option Nat
  | none => if n = 0 then none else some 0
  | some i => if i + 1 < n then some (i + 1) else none

/-- The scanning loop of the const `find` overload: walk from
`buckets_[hash]` until pointer-equality with the chosen end iterator,
comparing keys.  Dereferencing the sentinel is undefined behaviour (`none`),
and the loop can cycle through the circular list forever, which the fuel
cuts off (`none`). -/
def constScan (k : K) (vals : List (K × V)) (e : Option Nat) :
    Nat → Option Nat → Option (Option Nat)
  | 0, _ => none
  | fuel + 1, b =>
    if b = e then some none
    else
      match b with
      | none => none
      | some i =>
        match vals[i]? with
        | none => none
        | some ei =>
          if ei.1 = k then some (some i)
          else constScan k vals e fuel (circSucc vals.length (some i))

/-- The const overload of `UnorderedMap::find`: `hash_(key) % bucket_count()`
(a remainder by zero when `bucket_count() == 0` — undefined behaviour,
modelled as `none`), then a scan from `buckets_[hash]` bounded by
`buckets_[hash + 1]` (or `cend()` for the last bucket). -/
def findConst? (hash : K → Nat) (m : UMap K V) (k : K) : Option (Option Nat) :=
  if m.bucketCount = 0 then none
  else
    constScan k m.values
      (if hash k % m.bucketCount ≠ m.bucketCount - 1 then
         (m.buckets[hash k % m.bucketCount + 1]?).getD none
       else none)
      (m.values.length + 2)
      ((m.buckets[hash k % m.bucketCount]?).getD none)

end ConstFind

section OtherModels

variable {K V : Type} [DecidableEq K] (hash : K → Nat)

/-- `operator[](const Key&)`: `find`; on a miss, `emplace(key, Value())`
(`d` stands for the default-constructed `Value()`); the function then
evaluates `*find(key)` — the full entry pair — as its result expression. -/
def opIndex (n : Nat) (m : UMap K V) (k : K) (d : V) :
    Option (UMap K V × Option (K × V)) :=
  match findIdx hash m k with
  | some _ => some (m, (findIdx hash m k).bind (fun j => m.values[j]?))
  | none =>
    match emplaceF hash n m k d with
    | none => none
    | some (m', _, _) =>
      some (m', (findIdx hash m' k).bind (fun j => m'.values[j]?))

/-- `List::emplace` when the entry constructor throws.
`NodeTraits::allocate` makes the node allocation; the `Node` constructor's
initializer then allocates the value buffer
(`value(AllocTraits::allocate(alloc, 1))`) and its body constructs the
entry, which throws.  The partially constructed `Node` is never destroyed,
so the value buffer is not deallocated; the handler in `List::emplace`
deallocates only the node allocation and rethrows, and the links are never
touched.  Returns the unchanged list and the net number of allocations left
unreleased (the leaked value buffer). -/
def listEmplaceThrow (l : List (K × V)) : List (K × V) × Nat :=
  let nodeAllocated := 1
  let valueBufferAllocated := 1
  let nodeReleased := 1
  (l, nodeAllocated + valueBufferAllocated - nodeReleased)

/-- `UnorderedMap::emplace` when the construction of the scratch
`std::pair<Key, Value>` inside `construct_with_allocator` throws: the
capacity check and any triggered growth rehash have already run; the scratch
allocation is made, construction fails, and the exception propagates —
`construct_with_allocator` has no handler, so the allocation is never
released.  Returns the container as the caller then observes it and the net
number of allocations left unreleased. -/
def emplaceThrow (n : Nat) (m : UMap K V) : Option (UMap K V × Nat) :=
  match (if m.size + 1 > (3 * m.bucketCount) / 4 then
           rehashF hash n m ((4 * max 16 (2 * m.size) + 2) / 3)
         else some m) with
  | none => none
  | some m1 =>
    let allocated := 1
    some (m1, allocated)

/-- The move constructor `UnorderedMap(UnorderedMap&&)`: start from a fresh
map, size the bucket vector to the source's bucket count, clear the source's
bucket vector, then drain the source front-to-back re-`emplace`-ing every
entry.  Returns the new map and the moved-from source. -/
def moveCtorF (n : Nat) (m : UMap K V) : Option (UMap K V × UMap K V) :=
  match reinsertF hash n
      (⟨[], List.replicate m.bucketCount none⟩ : UMap K V) m.values with
  | none => none
  | some fresh => some (fresh, (⟨[], []⟩ : UMap K V))

end OtherModels

section ListEqModel

variable {α : Type} [DecidableEq α]

/-- The comparison loop of `List::operator==` as written in the source: the
condition checks both iterators against `cend()`, the body compares the
dereferenced entries, but the increment clause is `++it_1, ++it_1` — it
advances the first iterator twice around the circular list and never
advances the second.  The fuel cuts off the (reachable) infinite loop,
modelled as `none`. -/
def eqScan (a b : List α) : Nat → Option Nat → Option Nat → Option Bool
  | 0, _, _ => none
  | fuel + 1, some x, some y =>
    match a[x]?, b[y]? with
    | some ea, some eb =>
      if ea = eb then
        eqScan a b fuel (circSucc a.length (circSucc a.length (some x))) (some y)
      else some false
    | _, _ => none
  | _ + 1, _, _ => some true

/-- `List::operator==`: size check, then the loop from `cbegin()` of each
list. -/
def listEqCpp (a b : List α) : Option Bool :=
  if b.length ≠ a.length then some false
  else
    eqScan a b (2 * a.length + 2)
      (if a.length = 0 then none else some 0)
      (if b.length = 0 then none else some 0)

end ListEqModel

/-! ### Concrete states used by the witnesses -/

/-- The map obtained by inserting `(1, 5)` into a default-constructed map:
the first insert grows the bucket vector to `22` and links the entry at the
front as the head of bucket `1`. -/
def wmap1 : UMap Nat Nat := ⟨[(1, 5)], (List.replicate 22 none).set 1 (some 0)⟩

theorem wmap1_reachable : Reachable natHash wmap1 :=
  Reachable.emplace 2 1 5 Reachable.empty
    (by decide :
      emplaceF natHash 2 (UMap.empty Nat Nat) 1 5 = some (wmap1, some 0, true))

/-- `wmap1` rehashed to 23 buckets. -/
def wmap1r : UMap Nat Nat := ⟨[(1, 5)], (List.replicate 23 none).set 1 (some 0)⟩

/-- The map obtained by inserting `(0, 0)` into a default-constructed map. -/
def m0cex : UMap Nat Nat := ⟨[(0, 0)], (List.replicate 22 none).set 0 (some 0)⟩

theorem m0cex_reachable : Reachable natHash m0cex :=
  Reachable.emplace 2 0 0 Reachable.empty
    (by decide :
      emplaceF natHash 2 (UMap.empty Nat Nat) 0 0 = some (m0cex, some 0, true))

/-- `m0cex` rehashed to 30 buckets. -/
def m0r30 : UMap Nat Nat := ⟨[(0, 0)], (List.replicate 30 none).set 0 (some 0)⟩

/-- The spec's growth scenario: thirteen sequential inserts of the keys
`1..13` (each key mapped to itself) into a default-constructed map. -/
def scen13 : Option (UMap Nat Nat) :=
  reinsertF natHash 100 (UMap.empty Nat Nat)
    ((List.range 13).map fun i => (i + 1, i + 1))

/-! ### The claims -/

/-- C1: in every map reachable from the empty map by any sequence of
insert/emplace, erase, and rehash operations, every bucket `b` satisfies the
contiguity invariant: the maximal run of consecutive node-store entries
starting at `head(b)` contains only entries whose key hashes (mod
`bucket_count`) to `b`, and no entry whose key hashes to `b` lies outside
that run; in particular each of insert, erase, and rehash preserves the
invariant. -/
theorem C1_bucket_chain_contiguity {K V : Type} [DecidableEq K]
    (hash : K → Nat) {m : UMap K V} (hm : Reachable hash m) :
    ∀ h, h < m.bucketCount → ContigAt hash m h :=
  fun h hh => (reachable_wf hash hm).2.2 h hh

/-- C1, witness: the invariant at the concrete reachable one-entry map. -/
theorem C1_bucket_chain_contiguity_witness :
    Reachable natHash wmap1 ∧ ∀ h, h < wmap1.bucketCount → ContigAt natHash wmap1 h :=
  ⟨wmap1_reachable, C1_bucket_chain_contiguity natHash wmap1_reachable⟩

/-- C2, counterexample: inserting the keys `1..13` into a default map ends
with `bucket_count() = 22`, not `32` as the claim states (the automatic
growth at the first insert already goes through
`reserve(16) = rehash(ceil(16/0.75)) = rehash(22)`, and `13 ≤
floor(22·0.75) = 16` means no further growth by the 13th insert). -/
theorem C2_growth_scenario_counterexample :
    scen13.map UMap.bucketCount ≠ some 32 ∧
    scen13.map UMap.bucketCount = some 22 := by decide

/-- C2 (amended): the 13-insert scenario ends with `bucket_count() = 22`,
`size() = 13`, `find(7)` returning the entry with key 7 (at index 6), and
`find(99)` missing. -/
theorem C2_growth_scenario :
    scen13.map UMap.bucketCount = some 22 ∧
    scen13.map UMap.size = some 13 ∧
    scen13.bind (fun m => findIdx natHash m 7) = some 6 ∧
    scen13.bind (fun m => (findIdx natHash m 7).bind fun j => m.values[j]?)
      = some (7, 7) ∧
    scen13.bind (fun m => findIdx natHash m 99) = none := by decide

/-- C3: rehashing a reachable map to a larger bucket count preserves
`size()` and the multiset of (key, value) pairs, and every stored pair is
findable afterwards with the same mapped value. -/
theorem C3_rehash_preserves_content {K V : Type} [DecidableEq K]
    (hash : K → Nat) {m : UMap K V} (hm : Reachable hash m) {n c : Nat}
    {m' : UMap K V} (hgt : m.bucketCount < c)
    (hrun : rehashF hash n m c = some m') :
    m'.size = m.size ∧ m'.values.Perm m.values ∧
    ∀ k v, (k, v) ∈ m.values →
      ∃ j, findIdx hash m' k = some j ∧ m'.values[j]? = some (k, v) := by
  have wf := reachable_wf hash hm
  obtain ⟨wf', hperm, -, -⟩ := rehashF_spec hash wf hrun
  refine ⟨by simpa [UMap.size] using hperm.length_eq, hperm, ?_⟩
  intro k v hmem
  exact find_entry hash wf' (hperm.mem_iff.mpr hmem)

/-- C3, witness: rehashing the concrete one-entry map from 22 to 23
buckets. -/
theorem C3_rehash_preserves_content_witness :
    (wmap1.bucketCount < 23 ∧ rehashF natHash 5 wmap1 23 = some wmap1r) ∧
    (wmap1r.size = wmap1.size ∧ wmap1r.values.Perm wmap1.values ∧
     ∀ k v, (k, v) ∈ wmap1.values →
       ∃ j, findIdx natHash wmap1r k = some j ∧ wmap1r.values[j]? = some (k, v)) :=
  ⟨⟨by decide, by decide⟩,
   C3_rehash_preserves_content natHash wmap1_reachable
     (by decide : wmap1.bucketCount < 23)
     (by decide : rehashF natHash 5 wmap1 23 = some wmap1r)⟩

/-- C4, counterexample: the const overload of `find` is not total — on a
default-constructed map (`bucket_count() = 0`) it computes
`hash_(key) % 0`, and on the ordinary one-entry map it dereferences the end
sentinel while scanning a key of an empty bucket whose successor bucket is
nonempty; both are undefined behaviour (`none`), contradicting the claim
that both overloads never signal an error. -/
theorem C4_find_counterexample :
    findConst? natHash (UMap.empty Nat Nat) 0 = none ∧
    findConst? natHash wmap1 0 = none := by decide

/-- C4 (amended): for every reachable map and key, the *non-const* overload
of `find` never faults and returns the end iterator exactly when the key is
absent, otherwise an iterator to the entry whose key equals `k`. -/
theorem C4_find_total_nonconst {K V : Type} [DecidableEq K] (hash : K → Nat)
    {m : UMap K V} (hm : Reachable hash m) (k : K) :
    (findIdx hash m k = none ↔ k ∉ m.keys) ∧
    ∀ j, findIdx hash m k = some j → ∃ v, m.values[j]? = some (k, v) := by
  have wf := reachable_wf hash hm
  exact ⟨findIdx_none_iff hash wf k,
         fun j hj => (findIdx_sound hash m k j hj).2⟩

/-- C4, witness: the amended statement at the concrete one-entry map and
key 99. -/
theorem C4_find_total_nonconst_witness :
    Reachable natHash wmap1 ∧
    ((findIdx natHash wmap1 99 = none ↔ (99 : Nat) ∉ wmap1.keys) ∧
     ∀ j, findIdx natHash wmap1 99 = some j →
       ∃ v, wmap1.values[j]? = some (99, v)) :=
  ⟨wmap1_reachable, C4_find_total_nonconst natHash wmap1_reachable 99⟩

/-- C5: inserting `(k, v2)` into a reachable map that already stores
`(k, v1)` with `v2 ≠ v1` creates no entry (the flag is `false`), leaves
`size()` and the stored value for `k` unchanged, and the returned iterator
denotes the existing entry for `k`. -/
theorem C5_duplicate_insert {K V : Type} [DecidableEq K] (hash : K → Nat)
    {m : UMap K V} (hm : Reachable hash m) {k : K} {v1 v2 : V}
    (hmem : (k, v1) ∈ m.values) (hne : v2 ≠ v1) {n : Nat} {m' : UMap K V}
    {r : Option Nat} {b : Bool}
    (hrun : emplaceF hash n m k v2 = some (m', r, b)) :
    b = false ∧ m'.size = m.size ∧ (k, v1) ∈ m'.values ∧
    ∃ j, r = some j ∧ m'.values[j]? = some (k, v1) := by
  have wf := reachable_wf hash hm
  obtain ⟨wf', hbc', htrue, hfalse, -⟩ := emplaceF_spec hash wf hrun
  cases b with
  | true =>
    obtain ⟨-, hnotin, -⟩ := htrue rfl
    exact absurd (List.mem_map.mpr ⟨(k, v1), hmem, rfl⟩) hnotin
  | false =>
    obtain ⟨hperm, j, v', hr, hget, hmem'⟩ := hfalse rfl
    have hv : v' = v1 := value_unique wf.2.1 hmem' hmem
    subst hv
    exact ⟨rfl, by simpa [UMap.size] using hperm.length_eq,
           hperm.mem_iff.mpr hmem, j, hr, hget⟩

/-- C5, witness: a duplicate insert of key 1 with a different value into the
concrete one-entry map. -/
theorem C5_duplicate_insert_witness :
    ((1, 5) ∈ wmap1.values ∧ (20 : Nat) ≠ 5 ∧
     emplaceF natHash 3 wmap1 1 20 = some (wmap1, some 0, false)) ∧
    (false = false ∧ wmap1.size = wmap1.size ∧ (1, 5) ∈ wmap1.values ∧
     ∃ j, (some 0 : Option Nat) = some j ∧ wmap1.values[j]? = some (1, 5)) :=
  ⟨⟨by decide, by decide, by decide⟩,
   C5_duplicate_insert natHash wmap1_reachable
     (by decide : (1, 5) ∈ wmap1.values) (by decide : (20 : Nat) ≠ 5)
     (by decide : emplaceF natHash 3 wmap1 1 20 = some (wmap1, some 0, false))⟩

/-- C6, counterexample: `rehash(1)` on the reachable one-entry map with 22
buckets.  The claim predicts the clamp `max(1, ceil(1/0.75)) = 2` and a
resulting `bucket_count()` of `2`; the code clamps by truncation to
`max(1, 1) = 1`, rebuilds, and the re-insertion retriggers the automatic
growth, ending at `bucket_count() = 22`. -/
theorem C6_rehash_clamp_counterexample :
    emplaceF natHash 2 (UMap.empty Nat Nat) 0 0 = some (m0cex, some 0, true) ∧
    (rehashF natHash 10 m0cex 1).map UMap.bucketCount = some 22 ∧
    (some 22 : Option Nat) ≠ some (max 1 ((4 * m0cex.size + 2) / 3)) := by decide

/-- C6 (amended): `rehash(n)` first clamps `n` upward to at least
`floor(size / max_load_factor)` (truncation, not the ceiling); if the
clamped count equals the current `bucket_count` the call changes nothing;
otherwise — provided the size fits the clamped count's load threshold, so
that re-insertion does not retrigger growth — the call results in
`bucket_count()` equal to the clamped count. -/
theorem C6_rehash_clamp {K V : Type} [DecidableEq K] (hash : K → Nat)
    {m : UMap K V} (hm : Reachable hash m) (n c0 : Nat) {m' : UMap K V}
    (hrun : rehashF hash n m c0 = some m') :
    (max c0 ((4 * m.size) / 3) = m.bucketCount → m' = m) ∧
    (m.size ≤ (3 * max c0 ((4 * m.size) / 3)) / 4 →
      m'.bucketCount = max c0 ((4 * m.size) / 3)) := by
  have wf := reachable_wf hash hm
  refine ⟨(rehashF_spec hash wf hrun).2.2.2, ?_⟩
  intro hload
  cases n with
  | zero => exact Option.noConfusion hrun
  | succ n =>
    rw [rehashF_succ] at hrun
    by_cases hc : max c0 ((4 * m.size) / 3) = m.bucketCount
    · rw [if_pos hc] at hrun
      obtain rfl : m = m' := Option.some.inj hrun
      exact hc.symm
    · rw [if_neg hc] at hrun
      have hbase : Wellformed hash
          (⟨[], List.replicate (max c0 ((4 * m.size) / 3)) none⟩ : UMap K V) :=
        wf_emptyWith hash _
      have hnd : ((⟨[], List.replicate (max c0 ((4 * m.size) / 3)) none⟩ :
          UMap K V).keys ++ m.values.map Prod.fst).Nodup := by
        simpa [UMap.keys] using wf.2.1
      have hload' : (⟨[], List.replicate (max c0 ((4 * m.size) / 3)) none⟩ :
          UMap K V).size + m.values.length ≤
          (3 * (⟨[], List.replicate (max c0 ((4 * m.size) / 3)) none⟩ :
            UMap K V).bucketCount) / 4 := by
        have hbc : (⟨[], List.replicate (max c0 ((4 * m.size) / 3)) none⟩ :
            UMap K V).bucketCount = max c0 ((4 * m.size) / 3) := by
          simp [UMap.bucketCount]
        rw [hbc]
        have hms : m.size = m.values.length := rfl
        simp only [UMap.size, List.length_nil]
        omega
      have h9 := reinsert_noGrow hash n m.values _ m' hbase hnd hload' hrun
      rw [h9]
      simp [UMap.bucketCount]

/-- C6, witness: rehashing the concrete one-entry map to 30 buckets, where
the size fits the threshold and the bucket count becomes exactly the
clamp. -/
theorem C6_rehash_clamp_witness :
    (rehashF natHash 10 m0cex 30 = some m0r30 ∧
     m0cex.size ≤ (3 * max 30 ((4 * m0cex.size) / 3)) / 4) ∧
    ((max 30 ((4 * m0cex.size) / 3) = m0cex.bucketCount → m0r30 = m0cex) ∧
     (m0cex.size ≤ (3 * max 30 ((4 * m0cex.size) / 3)) / 4 →
       m0r30.bucketCount = max 30 ((4 * m0cex.size) / 3))) :=
  ⟨⟨by decide, by decide⟩,
   C6_rehash_clamp natHash m0cex_reachable 10 30
     (by decide : rehashF natHash 10 m0cex 30 = some m0r30)⟩

/-- C7: evaluating `operator[](const Key&)` at a missing key.  The mutation
is as the claim says — the miss inserts `(key, Value())` through `emplace`
(and its capacity check) — but the function's result expression
`*find(key)` denotes the whole entry pair `(5, 0)`, not the mapped value
the claim (and the `Key&&` overload, which returns
`(*emplace(...).first).second`) calls for; returning it as `Value&` does
not even type-check. -/
theorem C7_opIndex_yields_pair :
    (opIndex natHash 2 (UMap.empty Nat Nat) 5 0).map (fun x => x.2)
      = some (some (5, 0)) ∧
    (opIndex natHash 2 (UMap.empty Nat Nat) 5 0).map
        (fun x => (x.1.size, findIdx natHash x.1 5)) = some (1, some 0) := by
  decide

/-- C8, counterexample: a failing entry construction during `emplace` on a
default-constructed map.  The container is *not* left exactly in its prior
state — the growth rehash that ran before the scratch construction persists
(`bucket_count` 22, not 0) — and the scratch allocation is leaked, not
released (net unreleased allocations 1, not 0). -/
theorem C8_construction_failure_counterexample :
    (emplaceThrow natHash 2 (UMap.empty Nat Nat)).map
        (fun x => (x.1.bucketCount, x.2)) = some (22, 1) ∧
    ((22 : Nat), (1 : Nat)) ≠ ((UMap.empty Nat Nat).bucketCount, 0) := by decide

/-- C8 (amended): when entry construction fails inside `emplace`, the error
propagates and no node is linked (the entries and `size()` are unchanged,
up to the reordering of a completed growth rehash) — but the partially
constructed storage is not fully released on either path: the scratch
allocation of `construct_with_allocator` is leaked, the `List::emplace`
link-in path releases the node allocation while leaking the `Node`
constructor's value buffer (one allocation leaked per failing path), and a
growth rehash that already ran is kept. -/
theorem C8_construction_failure {K V : Type} [DecidableEq K] (hash : K → Nat)
    {m : UMap K V} (hm : Reachable hash m) {n : Nat} {m1 : UMap K V} {d : Nat}
    (hrun : emplaceThrow hash n m = some (m1, d)) :
    m1.values.Perm m.values ∧ m1.size = m.size ∧ d = 1 ∧
    ∀ (l : List (K × V)), listEmplaceThrow l = (l, 1) := by
  have wf := reachable_wf hash hm
  unfold emplaceThrow at hrun
  revert hrun
  by_cases hg : m.size + 1 > (3 * m.bucketCount) / 4
  · rw [if_pos hg]
    match hre : rehashF hash n m ((4 * max 16 (2 * m.size) + 2) / 3) with
    | none => intro h; exact Option.noConfusion h
    | some mr =>
      intro h
      obtain ⟨rfl, rfl⟩ : mr = m1 ∧ 1 = d := by simpa using Option.some.inj h
      have hperm := (rehashF_spec hash wf hre).2.1
      exact ⟨hperm, by simpa [UMap.size] using hperm.length_eq, rfl, fun l => rfl⟩
  · rw [if_neg hg]
    intro h
    obtain ⟨rfl, rfl⟩ : m = m1 ∧ 1 = d := by simpa using Option.some.inj h
    exact ⟨List.Perm.refl _, rfl, rfl, fun l => rfl⟩

/-- C8, witness: a failing construction on the default-constructed map. -/
theorem C8_construction_failure_witness :
    emplaceThrow natHash 2 (UMap.empty Nat Nat)
      = some (⟨[], List.replicate 22 none⟩, 1) ∧
    ((⟨[], List.replicate 22 none⟩ : UMap Nat Nat).values.Perm
        (UMap.empty Nat Nat).values ∧
     (⟨[], List.replicate 22 none⟩ : UMap Nat Nat).size
        = (UMap.empty Nat Nat).size ∧
     (1 : Nat) = 1 ∧
     ∀ (l : List (Nat × Nat)), listEmplaceThrow l = (l, 1)) :=
  ⟨by decide,
   C8_construction_failure natHash Reachable.empty
     (by decide : emplaceThrow natHash 2 (UMap.empty Nat Nat)
        = some (⟨[], List.replicate 22 none⟩, 1))⟩

/-- C9: evaluating `List::operator==` as written.  The loop's increment
clause is `++it_1, ++it_1` — the first iterator advances twice and the
second never advances — so two equal-size containers whose entries differ
at position 1 compare *equal*; the same-odd-size comparison cycles the
circular list forever; only the size check behaves as claimed. -/
theorem C9_equality_bug :
    listEqCpp [((1 : Nat), (10 : Nat)), (2, 20)] [(1, 10), (2, 99)]
      = some true ∧
    listEqCpp [((1 : Nat), (10 : Nat))] [(1, 10)] = none ∧
    listEqCpp [((1 : Nat), (10 : Nat)), (2, 20)] [(1, 10)] = some false := by
  decide

/-- C10: move construction from a reachable map yields a map with exactly
the source's entries (same size, every key findable with its value) and
leaves the moved-from map with `size() = 0` and `bucket_count() = 0`. -/
theorem C10_move_construction {K V : Type} [DecidableEq K] (hash : K → Nat)
    {m : UMap K V} (hm : Reachable hash m) {n : Nat} {nm src : UMap K V}
    (hrun : moveCtorF hash n m = some (nm, src)) :
    src.size = 0 ∧ src.bucketCount = 0 ∧ nm.size = m.size ∧
    nm.values.Perm m.values ∧
    ∀ k v, (k, v) ∈ m.values →
      ∃ j, findIdx hash nm k = some j ∧ nm.values[j]? = some (k, v) := by
  have wf := reachable_wf hash hm
  unfold moveCtorF at hrun
  revert hrun
  match hre : reinsertF hash n
      (⟨[], List.replicate m.bucketCount none⟩ : UMap K V) m.values with
  | none => intro h; exact Option.noConfusion h
  | some fresh =>
    intro h
    obtain ⟨rfl, rfl⟩ : fresh = nm ∧ (⟨[], []⟩ : UMap K V) = src := by
      simpa using Option.some.inj h
    have hbase : Wellformed hash
        (⟨[], List.replicate m.bucketCount none⟩ : UMap K V) :=
      wf_emptyWith hash _
    have hnd : ((⟨[], List.replicate m.bucketCount none⟩ : UMap K V).keys
        ++ m.values.map Prod.fst).Nodup := by
      simpa [UMap.keys] using wf.2.1
    obtain ⟨wf', hperm, -⟩ := reinsertF_spec hash hbase hnd hre
    have hperm' : fresh.values.Perm m.values := by simpa using hperm
    refine ⟨rfl, rfl, by simpa [UMap.size] using hperm'.length_eq, hperm', ?_⟩
    intro k v hmem
    exact find_entry hash wf' (hperm'.mem_iff.mpr hmem)

/-- C10, witness: move construction from the concrete one-entry map. -/
theorem C10_move_construction_witness :
    moveCtorF natHash 5 wmap1 = some (wmap1, UMap.empty Nat Nat) ∧
    ((UMap.empty Nat Nat).size = 0 ∧ (UMap.empty Nat Nat).bucketCount = 0 ∧
     wmap1.size = wmap1.size ∧ wmap1.values.Perm wmap1.values ∧
     ∀ k v, (k, v) ∈ wmap1.values →
       ∃ j, findIdx natHash wmap1 k = some j ∧ wmap1.values[j]? = some (k, v)) :=
  ⟨by decide,
   C10_move_construction natHash wmap1_reachable
     (by decide : moveCtorF natHash 5 wmap1 = some (wmap1, UMap.empty Nat Nat))⟩
